import Mathlib

/-!
Verification of the layout core of `dot2bgraph` (blockgraph converter).

Node names are modelled as natural-number identifiers, ordered the way the
Python code orders node-name strings (alphabetically); only the total order
on names is ever used by the code.  Python dictionaries are modelled as
association lists with in-place update (`upsert`, preserving insertion
order, like `dict.__setitem__`) and `setdefault` appending at the end;
Python sets of hashable values are modelled as duplicate-free lists with
membership-guarded insertion.
-/

/-- Lookup in an association list (first match), modelling `dict.__getitem__`. -/
def look {α β : Type} [DecidableEq α] : List (α × β) → α → Option β
  | [], _ => none
  | (k, v) :: t, a => if a = k then some v else look t a

/-- Update-or-append in an association list, modelling `dict.__setitem__`:
an existing key keeps its position, a new key is appended at the end. -/
def upsert {α β : Type} [DecidableEq α] (k : α) (v : β) : List (α × β) → List (α × β)
  | [] => [(k, v)]
  | (k', v') :: t => if k = k' then (k, v) :: t else (k', v') :: upsert k v t

/-- Model of `dict.setdefault(k, v)`: insert only when the key is absent. -/
def setdefault {α β : Type} [DecidableEq α] (k : α) (v : β) (l : List (α × β)) : List (α × β) :=
  if (look l k).isSome then l else l ++ [(k, v)]

/-- Model of Python `max(xs)` for a nonempty list (0 for the empty list). -/
def listMax : List Nat → Nat
  | [] => 0
  | x :: t => t.foldl max x

/-- Model of Python `min(xs)` for a nonempty list (0 for the empty list). -/
def listMin : List Nat → Nat
  | [] => 0
  | x :: t => t.foldl min x

/-- One sibling node of a Region: its name and its full `next`/`prev`
edge-endpoint lists (ordered, with multiplicity), as in `converter/node.py`. -/
structure RNode where
  name : Nat
  next : List Nat
  prev : List Nat
deriving DecidableEq, Repr

/-- The sibling set of one Region (the values of `Region.nodes_map`). -/
structure RegionG where
  nodes : List RNode
deriving DecidableEq, Repr

/-- Names of the Region's members (`Region.nodes_map` keys). -/
def RegionG.names (r : RegionG) : List Nat := r.nodes.map (fun n => n.name)

/-- Find a member node by name. -/
def RegionG.findNode (r : RegionG) (n : Nat) : Option RNode :=
  r.nodes.find? (fun m => m.name = n)

/-- Full `next` list of a member (empty for a non-member). -/
def nextOfN (r : RegionG) (n : Nat) : List Nat :=
  ((r.findNode n).map (fun m => m.next)).getD []

/-- Full `prev` list of a member (empty for a non-member). -/
def prevOfN (r : RegionG) (n : Nat) : List Nat :=
  ((r.findNode n).map (fun m => m.prev)).getD []

/-- Model of `Node.local_next`: the sublist of `next` whose endpoint is a
sibling in the same Region. -/
def local_next (r : RegionG) (n : Nat) : List Nat :=
  (nextOfN r n).filter (fun m => m ∈ r.names)

/-- Model of `Node.local_prev`. -/
def local_prev (r : RegionG) (n : Nat) : List Nat :=
  (prevOfN r n).filter (fun m => m ∈ r.names)

/-- Model of `Node.other_next`: endpoints living in a different Region. -/
def other_next (r : RegionG) (n : Nat) : List Nat :=
  (nextOfN r n).filter (fun m => ¬ m ∈ r.names)

/-- Model of `Node.other_prev`. -/
def other_prev (r : RegionG) (n : Nat) : List Nat :=
  (prevOfN r n).filter (fun m => ¬ m ∈ r.names)

/-- Model of `Node.width = max(1, |local_prev|, |local_next|)`. -/
def node_width (r : RegionG) (n : Nat) : Nat :=
  max 1 (max (local_prev r n).length (local_next r n).length)

/-- Model of `Node.height = max(1, |other_prev|, |other_next|)`. -/
def node_height (r : RegionG) (n : Nat) : Nat :=
  max 1 (max (other_prev r n).length (other_next r n).length)

/-- Edge classification labels from `converter/grid.py`. -/
inductive EdgeType where
  | NORMAL
  | FWD
  | CROSS
  | BACK
deriving DecidableEq, Repr

/-- Snapshot of one first-encounter classification performed by
`_classify_edge`: the edge, whether its target was already visited /
finished at that moment, the start times of both endpoints at that moment,
and the `EdgeType` that was stored. -/
structure ClsEvent where
  u : Nat
  v : Nat
  visitedV : Bool
  finishedV : Bool
  su : Nat
  sv : Nat
  assigned : EdgeType
deriving DecidableEq, Repr

/-- Traversal state of `_SeenNodes` together with the accumulated
`edge_types` map and the log of first-encounter classification events. -/
structure DfsSt where
  time : Nat
  start : List (Nat × Nat)
  finish : List (Nat × Nat)
  visited : List Nat
  etypes : List ((Nat × Nat) × EdgeType)
  events : List ClsEvent
deriving DecidableEq, Repr

/-- Start time of a node (`seen.start[n]`). -/
def startOf (s : DfsSt) (n : Nat) : Nat := (look s.start n).getD 0

/-- Decision rule of `_classify_edge` (grid.py lines 451-468). -/
def classify_edge (s : DfsSt) (e : Nat × Nat) : EdgeType :=
  if ¬ e.2 ∈ s.visited then EdgeType.NORMAL
  else if (look s.finish e.2).isNone then EdgeType.BACK
  else if startOf s e.1 < startOf s e.2 then EdgeType.FWD
  else EdgeType.CROSS

/-- Event recorded when `_classify_edge` stores a classification. -/
def mkEvent (s : DfsSt) (e : Nat × Nat) : ClsEvent :=
  ⟨e.1, e.2, decide (e.2 ∈ s.visited), (look s.finish e.2).isSome,
    startOf s e.1, startOf s e.2, classify_edge s e⟩

/-- Tail of `_classify_edge`: store the computed type only if the edge has
not been classified yet (`if edge not in edge_types`). -/
def classify_store (s : DfsSt) (e : Nat × Nat) : DfsSt :=
  match look s.etypes e with
  | some _ => s
  | none =>
    { s with
      etypes := upsert e (classify_edge s e) s.etypes
      events := s.events ++ [mkEvent s e] }

/-- Entry bookkeeping of `_get_edge_types_recurse`: bump the clock, record
the start time and mark the node visited. -/
def enterNode (s : DfsSt) (n : Nat) : DfsSt :=
  { s with
    time := s.time + 1
    start := upsert n (s.time + 1) s.start
    visited := if n ∈ s.visited then s.visited else s.visited ++ [n] }

/-- Exit bookkeeping of `_get_edge_types_recurse`: bump the clock and record
the finish time. -/
def exitNode (s : DfsSt) (n : Nat) : DfsSt :=
  { s with
    time := s.time + 1
    finish := upsert n (s.time + 1) s.finish }

/-- Loop body of `_get_edge_types_recurse` for one outgoing local edge:
classify it, store the result on first encounter, and recurse (through the
continuation `f`) when its stored classification is NORMAL. -/
def dfsStep (f : Nat → DfsSt → DfsSt) (cur : Nat) (acc : DfsSt) (w : Nat) : DfsSt :=
  let a1 := classify_store acc (cur, w)
  match look a1.etypes (cur, w) with
  | some EdgeType.NORMAL => f w a1
  | _ => a1

/-- Model of `_get_edge_types_recurse` (fuel-indexed; with fuel 0 the call
returns immediately, which only ever under-approximates the traversal and
is never reached in the concrete runs below). -/
def dfsVisit (r : RegionG) : Nat → Nat → DfsSt → DfsSt
  | 0, _, s => s
  | fuel + 1, cur, s =>
    exitNode ((local_next r cur).foldl (dfsStep (dfsVisit r fuel) cur) (enterNode s cur)) cur

/-- Initial `_SeenNodes` state. -/
def dfsInit : DfsSt := ⟨0, [], [], [], [], []⟩

/-- Stable sort of a name list, modelling Python `sorted` by node name. -/
def sortNames (l : List Nat) : List Nat := l.insertionSort (fun a b => a ≤ b)

/-- Step of `_get_conn_comp_dfs_recurse` over one neighbour: skip it when
already seen, otherwise recurse through the continuation `f`. -/
def ccStep (f : Nat → List Nat × List Nat → List Nat × List Nat)
    (st : List Nat × List Nat) (nb : Nat) : List Nat × List Nat :=
  if nb ∈ st.1 then st else f nb st

/-- Model of `_get_conn_comp_dfs_recurse`: collect the connected component
of a node over local edges taken undirected (state: seen set, component). -/
def ccDfs (r : RegionG) : Nat → Nat → List Nat × List Nat → List Nat × List Nat
  | 0, _, st => st
  | fuel + 1, n, st =>
    (local_next r n ++ local_prev r n).foldl (ccStep (ccDfs r fuel)) (st.1 ++ [n], st.2 ++ [n])

/-- Members of a connected component whose full `prev` list is empty
(`{node for node in conn_comp if not node.prev}`). -/
def cc_empties (r : RegionG) (cc : List Nat) : List Nat :=
  cc.filter (fun n => prevOfN r n = [])

/-- Model of `min_inward = min(len(node.prev) for node in conn_comp)`. -/
def cc_min_inward (r : RegionG) (cc : List Nat) : Nat :=
  listMin (cc.map (fun n => (prevOfN r n).length))

/-- Model of `max_outward = max(len(node.next) for node in conn_comp)`. -/
def cc_max_outward (r : RegionG) (cc : List Nat) : Nat :=
  listMax (cc.map (fun n => (nextOfN r n).length))

/-- Model of `_sources_per_conn_comp`.  `none` models a failed assertion
(the empty-component assert at entry, or the final `assert False`). -/
def sources_per_conn_comp (r : RegionG) (cc : List Nat) : Option (List Nat) :=
  match cc with
  | [] => none
  | c :: cs =>
    if cc_empties r (c :: cs) ≠ [] then some (cc_empties r (c :: cs))
    else
      match (sortNames (c :: cs)).find?
          (fun n => decide ((prevOfN r n).length = cc_min_inward r (c :: cs) ∧
            (nextOfN r n).length = cc_max_outward r (c :: cs))) with
      | some n => some [n]
      | none => none

/-- Step of `_sources`: for each node in name order, if unseen, collect its
connected component and add that component's sources. -/
def sourcesStep (r : RegionG) (acc : Option (List Nat) × List Nat) (n : Nat) :
    Option (List Nat) × List Nat :=
  if n ∈ acc.2 then acc
  else
    let sc := ccDfs r r.nodes.length n (acc.2, [])
    match acc.1, sources_per_conn_comp r sc.2 with
    | some srcs, some s2 => (some (srcs ++ s2), sc.1)
    | _, _ => (none, sc.1)

/-- Model of `_sources`: one source set per connected component, returned
sorted by name; `none` models an assertion failure inside
`_sources_per_conn_comp`. -/
def sources (r : RegionG) : Option (List Nat) :=
  (((sortNames r.names).foldl (sourcesStep r) (some [], [])).1).map sortNames

/-- Model of `_num_local_prev_forward_edges`: the number of local prev
edges (with multiplicity) that are not BACK edges. -/
def num_local_prev_forward_edges (r : RegionG) (etypes : List ((Nat × Nat) × EdgeType))
    (n : Nat) : Nat :=
  ((local_prev r n).filter (fun p => ¬ look etypes (p, n) = some EdgeType.BACK)).length

/-- State of the `_get_node_depths` BFS: the `node_depths` dict, the
`seen_in_edges` dict (a set of edge keys per node) and the queue. -/
structure BfsSt where
  depths : List (Nat × Nat)
  seenIn : List (Nat × List (Nat × Nat))
  queue : List (Nat × Nat)
deriving DecidableEq, Repr

/-- Inner loop of `_get_node_depths` over the popped node's local next
edges: update the depth (unless the edge is BACK), record the edge as seen
and enqueue the target when its seen count reaches the non-BACK quorum. -/
def bfsProcessEdges (r : RegionG) (etypes : List ((Nat × Nat) × EdgeType))
    (cur cd : Nat) : List Nat → BfsSt → BfsSt
  | [], st => st
  | w :: ws, st =>
    let e := (cur, w)
    let d1 := setdefault w 0 st.depths
    let d2 :=
      if ¬ look etypes e = some EdgeType.BACK then
        upsert w (max ((look d1 w).getD 0) (cd + 1)) d1
      else d1
    let prevSeen := (look st.seenIn w).getD []
    let newSeen := if e ∈ prevSeen then prevSeen else prevSeen ++ [e]
    let si := upsert w newSeen st.seenIn
    let q :=
      if newSeen.length = num_local_prev_forward_edges r etypes w then
        st.queue ++ [(w, cd + 1)]
      else st.queue
    bfsProcessEdges r etypes cur cd ws ⟨d2, si, q⟩

/-- Queue loop of `_get_node_depths` (fuel-indexed). -/
def bfsLoop (r : RegionG) (etypes : List ((Nat × Nat) × EdgeType)) :
    Nat → BfsSt → List (Nat × Nat)
  | 0, st => st.depths
  | fuel + 1, st =>
    match st.queue with
    | [] => st.depths
    | (cur, cd) :: rest =>
      bfsLoop r etypes fuel
        (bfsProcessEdges r etypes cur cd (local_next r cur) ⟨st.depths, st.seenIn, rest⟩)

/-- Model of `_get_node_depths`: initialize every source at depth 0 and run
the quorum BFS. -/
def get_node_depths (r : RegionG) (etypes : List ((Nat × Nat) × EdgeType)) (fuel : Nat) :
    List (Nat × Nat) :=
  match sources r with
  | none => []
  | some srcs =>
    let st0 := srcs.foldl
      (fun st s => ⟨upsert s 0 st.depths, upsert s [] st.seenIn, st.queue ++ [(s, 0)]⟩)
      (⟨[], [], []⟩ : BfsSt)
    bfsLoop r etypes fuel st0

/-- Model of `_get_edge_types`: run the classifying DFS from each source in
order, on a shared traversal state. -/
def get_edge_types_run (r : RegionG) (fuel : Nat) : DfsSt :=
  match sources r with
  | none => dfsInit
  | some srcs => srcs.foldl (fun s src => dfsVisit r fuel src s) dfsInit

/-- The `edge_types` map produced by `_get_edge_types`. -/
def get_edge_types (r : RegionG) (fuel : Nat) : List ((Nat × Nat) × EdgeType) :=
  (get_edge_types_run r fuel).etypes

/-- Region used to exhibit the quorum bug of `_get_node_depths`: siblings
a=1, b=2, c=3 with local edges a→b, a→b (parallel), b→c, a→c. -/
def regionC2 : RegionG :=
  ⟨[⟨1, [2, 2, 3], []⟩, ⟨2, [3], [1, 1]⟩, ⟨3, [], [2, 1]⟩]⟩

/-- Monotone part of one DFS traversal step: the visited set only grows and
already-stored classifications are never overwritten. -/
def DfsLe (s s' : DfsSt) : Prop :=
  (∀ n ∈ s.visited, n ∈ s'.visited) ∧
  (∀ k t, look s.etypes k = some t → look s'.etypes k = some t)

/-- Property of one recorded first-encounter classification, stating claim
C1's rule: NORMAL when the target was unvisited, BACK when started but not
finished, FORWARD when finished with `start[u] < start[v]`, CROSS when
finished with `start[u] > start[v]`, and BACK for every self-loop. -/
def GoodEv (ev : ClsEvent) : Prop :=
  (ev.visitedV = false → ev.assigned = EdgeType.NORMAL) ∧
  (ev.visitedV = true → ev.finishedV = false → ev.assigned = EdgeType.BACK) ∧
  (ev.finishedV = true → ev.su < ev.sv → ev.assigned = EdgeType.FWD) ∧
  (ev.finishedV = true → ev.sv < ev.su → ev.assigned = EdgeType.CROSS) ∧
  (ev.u = ev.v → ev.assigned = EdgeType.BACK)

/-- Invariant of the classification DFS: finished nodes are visited, every
outgoing local edge of a finished node is already classified, and every
recorded event satisfies the classification rule. -/
def DfsInv (r : RegionG) (s : DfsSt) : Prop :=
  (∀ p ∈ s.finish, p.1 ∈ s.visited) ∧
  (∀ p ∈ s.finish, ∀ w ∈ local_next r p.1, (look s.etypes (p.1, w)).isSome) ∧
  (∀ ev ∈ s.events, GoodEv ev)

/-- Region used to refute claim C3: siblings a=1, b=2, local edge a→b, and
two external edges into a (a.prev = [9, 9] with 9 outside the region).
The component {1, 2} has no member with empty `prev`; the minimum |prev| is
attained only by b=2 while the maximum |next| is attained only by a=1, so
`_sources_per_conn_comp` reaches its final `assert False`. -/
def regionC3 : RegionG := ⟨[⟨1, [2], [9, 9]⟩, ⟨2, [], [1]⟩]⟩

/-- Model of `_independent_sub_grids`: more than one entry in the depth
dict and every depth equal to `Grid.MIN_INDEX = 0`. -/
def independent_sub_grids (node_depths : List (Nat × Nat)) : Bool :=
  decide (node_depths.length > 1) && node_depths.all (fun p => p.2 == 0)

/-- Result of composing a Region's recursively-placed children: either a
PackGrid (children handed to the rectangle packer) or a RowsGrid with
explicit cells (child, x, y). -/
inductive PlacedGrid where
  | packG (children : List Nat)
  | rowsG (cells : List (Nat × Nat × Nat))
deriving DecidableEq, Repr

/-- Model of `GridRows.add_sub_grid`'s x-default for a given row y:
`max((k+1 for k in row keys), default=0)`. -/
def rows_auto_x (cells : List (Nat × Nat × Nat)) (y : Nat) : Nat :=
  ((cells.filter (fun c => c.2.2 = y)).map (fun c => c.2.1 + 1)).foldl max 0

/-- Model of `_make_rows_grid`: add each (sub-grid, depth) pair at row
y = depth, x allocated at the end of that row. -/
def make_rows_grid (sub_grids : List (Nat × Nat)) : List (Nat × Nat × Nat) :=
  sub_grids.foldl (fun acc cd => acc ++ [(cd.1, rows_auto_x acc cd.2, cd.2)]) []

/-- Composition choice of `place_on_grid` (grid.py lines 644-647) given the
Region's computed depth map. -/
def place_on_grid_compose (node_depths : List (Nat × Nat)) : PlacedGrid :=
  if independent_sub_grids node_depths then PlacedGrid.packG (node_depths.map Prod.fst)
  else PlacedGrid.rowsG (make_rows_grid node_depths)

/-- Tag distinguishing the two concrete Grid variants. -/
inductive GridTag where
  | rowsT
  | packT
deriving DecidableEq, Repr

/-- A placed grid tree: variant tag, the owning node's `width`/`height`,
`padding_outer`, `padding_inner`, and the sub-grids with their (x, y)
coordinates (row/packing indices for GridRows, pixel offsets for
GridPack). -/
inductive GridT where
  | mk (tag : GridTag) (nodeW nodeH pOuter pInner : Nat) (cells : List (Nat × Nat × GridT))

/-- Node width recorded in a grid (`self.node.width`). -/
def GridT.nodeW : GridT → Nat
  | .mk _ w _ _ _ _ => w

/-- Node height recorded in a grid (`self.node.height`). -/
def GridT.nodeH : GridT → Nat
  | .mk _ _ h _ _ _ => h

/-- Model of `GridRows._row_width(y)` over dimension triples (x, y, w):
the sum of sub-grid widths in row y plus inner padding between them. -/
def row_width_of (pInner : Nat) (ws : List (Nat × Nat × Nat)) (y : Nat) : Nat :=
  ((ws.filter (fun c => c.2.1 = y)).map (fun c => c.2.2)).sum
    + pInner * ((ws.filter (fun c => c.2.1 = y)).length - 1)

/-- Row-content part of `GridRows.width`: the maximal row width plus outer
padding on both sides (0 when there are no rows). -/
def rows_content_w (pOuter pInner : Nat) (ws : List (Nat × Nat × Nat)) : Nat :=
  if ws = [] then 0
  else listMax (((ws.map (fun c => c.2.1)).dedup).map (row_width_of pInner ws)) + 2 * pOuter

/-- Content part of `GridPack.width`: the maximal x + sub-grid width plus
outer padding on both sides (0 when empty). -/
def pack_content_w (pOuter : Nat) (ws : List (Nat × Nat × Nat)) : Nat :=
  if ws = [] then 0 else listMax (ws.map (fun c => c.1 + c.2.2)) + 2 * pOuter

/-- Model of `GridRows._row_height(y)` over dimension triples (x, y, h). -/
def row_height_of (ws : List (Nat × Nat × Nat)) (y : Nat) : Nat :=
  listMax ((ws.filter (fun c => c.2.1 = y)).map (fun c => c.2.2))

/-- Row-content part of `GridRows.height`: sum of row heights plus inner
padding between rows and outer padding top/bottom. -/
def rows_content_h (pOuter pInner : Nat) (ws : List (Nat × Nat × Nat)) : Nat :=
  if ws = [] then 0
  else (((ws.map (fun c => c.2.1)).dedup).map (row_height_of ws)).sum
    + pInner * ((ws.map (fun c => c.2.1)).dedup.length - 1) + 2 * pOuter

/-- Content part of `GridPack.height`: the maximal y + sub-grid height plus
outer padding (0 when empty). -/
def pack_content_h (pOuter : Nat) (ws : List (Nat × Nat × Nat)) : Nat :=
  if ws = [] then 0 else listMax (ws.map (fun c => c.2.1 + c.2.2)) + 2 * pOuter

mutual

/-- Model of `GridRows.width` / `GridPack.width`:
`max(1, content_total, node.width)`. -/
def widthG : GridT → Nat
  | .mk tag nW _ pOuter pInner cells =>
    max 1 (max
      (match tag with
        | .rowsT => rows_content_w pOuter pInner (cellWidths cells)
        | .packT => pack_content_w pOuter (cellWidths cells)) nW)

/-- Dimension triples (x, y, width) of a grid's sub-grids. -/
def cellWidths : List (Nat × Nat × GridT) → List (Nat × Nat × Nat)
  | [] => []
  | (x, y, g) :: t => (x, y, widthG g) :: cellWidths t

end

mutual

/-- Model of `GridRows.height` / `GridPack.height`:
`max(1, content_total, node.height)`. -/
def heightG : GridT → Nat
  | .mk tag _ nH pOuter pInner cells =>
    max 1 (max
      (match tag with
        | .rowsT => rows_content_h pOuter pInner (cellHeights cells)
        | .packT => pack_content_h pOuter (cellHeights cells)) nH)

/-- Dimension triples (x, y, height) of a grid's sub-grids. -/
def cellHeights : List (Nat × Nat × GridT) → List (Nat × Nat × Nat)
  | [] => []
  | (x, y, g) :: t => (x, y, heightG g) :: cellHeights t

end

/-- The `next` list of node u as built by `_create_edges` from the input
edge multiset, in input order (`Node.add_edge` appends). -/
def nextOfE (edges : List (Nat × Nat)) (u : Nat) : List Nat :=
  (edges.filter (fun e => e.1 = u)).map Prod.snd

/-- The `prev` list of node v as built from the input edge multiset. -/
def prevOfE (edges : List (Nat × Nat)) (v : Nat) : List Nat :=
  (edges.filter (fun e => e.2 = v)).map Prod.fst

/-- Local sublist used during flattening: endpoints in the same region as
u, where `reg` gives each node's enclosing region. -/
def localFilter (reg : Nat → Nat) (u : Nat) (l : List Nat) : List Nat :=
  l.filter (fun m => reg m = reg u)

/-- Complementary sublist: endpoints in a different region. -/
def otherFilter (reg : Nat → Nat) (u : Nat) (l : List Nat) : List Nat :=
  l.filter (fun m => ¬ reg m = reg u)

/-- Model of `_nodes_x_sorted` / `_nodes_y_sorted`: stable sort of peer
nodes by their absolute coordinate. -/
def sortByKey (key : Nat → Nat) (l : List Nat) : List Nat :=
  l.insertionSort (fun a b => key a ≤ key b)

/-- State of `_create_locations_edge_ends`: the edge-end id counter of
`Locations` and the `ee_from` / `ee_to` maps. -/
structure FlatSt where
  ctr : Nat
  eeFrom : List ((Nat × Nat) × List Nat)
  eeTo : List ((Nat × Nat) × List Nat)
deriving DecidableEq, Repr

/-- Model of `ee.setdefault((from, to), []).append(edge_end_id)`. -/
def pushEE (m : List ((Nat × Nat) × List Nat)) (k : Nat × Nat) (i : Nat) :
    List ((Nat × Nat) × List Nat) :=
  upsert k ((look m k).getD [] ++ [i]) m

/-- Emit one source EdgeEnd per peer in the given (sorted) list, appending
its fresh id under the key (w, peer) of `ee_from`. -/
def pushFroms (w : Nat) : List Nat → FlatSt → FlatSt
  | [], st => st
  | v :: vs, st => pushFroms w vs ⟨st.ctr + 1, pushEE st.eeFrom (w, v) st.ctr, st.eeTo⟩

/-- Emit one destination EdgeEnd per peer, appending its fresh id under the
key (peer, w) of `ee_to`. -/
def pushTos (w : Nat) : List Nat → FlatSt → FlatSt
  | [], st => st
  | m :: ms, st => pushTos w ms ⟨st.ctr + 1, st.eeFrom, pushEE st.eeTo (m, w) st.ctr⟩

/-- Loop body of `_create_locations_edge_ends` for one flattened sub-grid:
source EdgeEnds for `local_next` (sorted by x) and `other_next` (sorted by
y), then destination EdgeEnds for `local_prev` and `other_prev`. -/
def emit_node_edge_ends (edges : List (Nat × Nat)) (reg xc yc : Nat → Nat) (w : Nat)
    (st : FlatSt) : FlatSt :=
  let st1 := pushFroms w (sortByKey xc (localFilter reg w (nextOfE edges w))) st
  let st2 := pushFroms w (sortByKey yc (otherFilter reg w (nextOfE edges w))) st1
  let st3 := pushTos w (sortByKey xc (localFilter reg w (prevOfE edges w))) st2
  let st4 := pushTos w (sortByKey yc (otherFilter reg w (prevOfE edges w))) st3
  st4

/-- Model of `_create_locations_edge_ends` over the flattened sub-grids
(`nodesL` lists each flattened node exactly once). -/
def create_locations_edge_ends (edges : List (Nat × Nat)) (reg xc yc : Nat → Nat)
    (nodesL : List Nat) : FlatSt :=
  nodesL.foldl (fun st w => emit_node_edge_ends edges reg xc yc w st) ⟨0, [], []⟩

/-- Model of `_create_locations_edges`: pair the `ee_from` and `ee_to`
lists of every key index-wise, recording the directed edges. -/
def create_locations_edges (st : FlatSt) : List ((Nat × Nat) × List (Nat × Nat)) :=
  st.eeFrom.map (fun kl => (kl.1, kl.2.zip ((look st.eeTo kl.1).getD [])))

/-- Length of the id list stored under a key of `ee_from` / `ee_to`. -/
def lenEE (m : List ((Nat × Nat) × List Nat)) (k : Nat × Nat) : Nat :=
  ((look m k).getD []).length

/-- Model of Python `int()` applied to a rational: truncation toward zero. -/
def ratTrunc (q : ℚ) : ℤ := if 0 ≤ q then ⌊q⌋ else -⌊-q⌋

/-- Model of `_get_color` (directed.py lines 161-173), with the float
arithmetic carried out exactly over ℚ (0.2 as 1/5): the relative-depth
shade `col = 1 - (depth + 0.2·D) / (D + 2·0.2·D)` is scaled by 255 and
truncated by `int(...)`. -/
def get_color (depth maxDepth : Nat) : ℤ × ℤ × ℤ :=
  let md : Nat := if maxDepth = 0 then 1 else maxDepth
  let shift : ℚ := (1 / 5 : ℚ) * md
  let maxVal : ℚ := md + 2 * shift
  let val : ℚ := depth + shift
  let col : ℚ := 1 - val / maxVal
  let colInt : ℤ := ratTrunc (col * 255)
  (colInt, colInt, colInt)

/-- One `_EdgeEnd` of the Locations store, keeping the fields claim C8 is
about: the `is_source` flag and the set of peer edge-end ids. -/
structure EEnd where
  isSource : Bool
  peers : List Nat
deriving DecidableEq, Repr

/-- Update the edge end with the given id in place. -/
def updEE (L : List (Nat × EEnd)) (i : Nat) (f : EEnd → EEnd) : List (Nat × EEnd) :=
  L.map (fun p => if p.1 = i then (p.1, f p.2) else p)

/-- Model of `_EdgeEnd._add_edge_end`: add a peer id (a set, so adding an
existing peer is a no-op). -/
def addPeer (e : EEnd) (j : Nat) : EEnd :=
  { e with peers := if j ∈ e.peers then e.peers else e.peers ++ [j] }

/-- State of the store after the three mutations of
`Locations.add_edge(src, dst)` (locations.py lines 71-76): the two edge
ends are cross-linked as peers and `src.is_source` is set to True. -/
def add_edge_store (L : List (Nat × EEnd)) (s d : Nat) : List (Nat × EEnd) :=
  updEE (updEE (updEE L s (fun e => addPeer e d)) d (fun e => addPeer e s)) s
    (fun e => { e with isSource := true })

/-- Model of `Locations.add_edge(src, dst)`: perform the mutations, then
assert that `dst.is_source == False` on the mutated store; `none` models
the assertion (or a missing id) failing. -/
def locations_add_edge (L : List (Nat × EEnd)) (s d : Nat) : Option (List (Nat × EEnd)) :=
  match look (add_edge_store L s d) d with
  | some ed => if ed.isSource then none else some (add_edge_store L s d)
  | none => none

/-- Adjacency state of all Nodes: the `next` and `prev` list of each node,
indexed by name. -/
def AdjSt : Type := (Nat → List Nat) × (Nat → List Nat)

/-- Model of `Node.add_edge(to_node)` (node.py lines 79-90): append
`to_node` to the caller's `next` and the caller to `to_node`'s `prev`. -/
def node_add_edge (g : AdjSt) (u v : Nat) : AdjSt :=
  (fun w => if w = u then g.1 u ++ [v] else g.1 w,
   fun w => if w = v then g.2 v ++ [u] else g.2 w)

/-- Empty adjacency state: no node has any edges. -/
def adjInit : AdjSt := (fun _ => [], fun _ => [])

/-- Replay a sequence of `add_edge` calls on the empty state. -/
def apply_edges (es : List (Nat × Nat)) : AdjSt :=
  es.foldl (fun g e => node_add_edge g e.1 e.2) adjInit

theorem look_mem {α β : Type} [DecidableEq α] {l : List (α × β)} {k : α} {v : β}
    (h : look l k = some v) : (k, v) ∈ l := by
  induction l with
  | nil => simp [look] at h
  | cons p t ih =>
    obtain ⟨k', v'⟩ := p
    by_cases hk : k = k'
    · subst hk
      simp [look] at h
      subst h
      exact List.mem_cons_self _ _
    · simp [look, hk] at h
      exact List.mem_cons_of_mem _ (ih h)

theorem mem_upsert {α β : Type} [DecidableEq α] {l : List (α × β)} {k : α} {v : β}
    {p : α × β} (h : p ∈ upsert k v l) : p ∈ l ∨ p = (k, v) := by
  induction l with
  | nil => simpa [upsert] using h
  | cons q t ih =>
    obtain ⟨k', v'⟩ := q
    by_cases hk : k = k'
    · simp [upsert, hk] at h
      rcases h with h | h
      · right; simp [h, hk]
      · left; exact List.mem_cons_of_mem _ h
    · simp [upsert, hk] at h
      rcases h with h | h
      · left; simp [h]
      · rcases ih h with h' | h'
        · left; exact List.mem_cons_of_mem _ h'
        · right; exact h'

theorem look_upsert_self {α β : Type} [DecidableEq α] (l : List (α × β)) (k : α) (v : β) :
    look (upsert k v l) k = some v := by
  induction l with
  | nil => simp [upsert, look]
  | cons q t ih =>
    obtain ⟨k', v'⟩ := q
    by_cases hk : k = k'
    · simp [upsert, hk, look]
    · simp [upsert, hk, look, ih]

theorem look_upsert_ne {α β : Type} [DecidableEq α] (l : List (α × β)) {k a : α} (v : β)
    (h : a ≠ k) : look (upsert k v l) a = look l a := by
  induction l with
  | nil => simp [upsert, look, h]
  | cons q t ih =>
    obtain ⟨k', v'⟩ := q
    by_cases hk : k = k'
    · subst hk
      simp [upsert, look, h]
    · by_cases ha : a = k'
      · simp [upsert, hk, look, ha]
      · simp [upsert, hk, look, ha, ih]

theorem look_upsert_isSome {α β : Type} [DecidableEq α] (l : List (α × β)) {a k : α} (v : β)
    (h : (look l a).isSome) : (look (upsert k v l) a).isSome := by
  by_cases hk : a = k
  · subst hk; simp [look_upsert_self]
  · rwa [look_upsert_ne l v hk]

theorem DfsLe.rfl (s : DfsSt) : DfsLe s s := ⟨fun _ h => h, fun _ _ h => h⟩

theorem DfsLe.trans {s1 s2 s3 : DfsSt} (h1 : DfsLe s1 s2) (h2 : DfsLe s2 s3) :
    DfsLe s1 s3 :=
  ⟨fun n h => h2.1 n (h1.1 n h), fun k t h => h2.2 k t (h1.2 k t h)⟩

theorem dfsLe_classify_store (s : DfsSt) (e : Nat × Nat) : DfsLe s (classify_store s e) := by
  unfold classify_store
  cases h : look s.etypes e with
  | some t => exact DfsLe.rfl s
  | none =>
    refine ⟨fun n hn => hn, fun k t hk => ?_⟩
    have hke : k ≠ e := by
      intro hke; rw [hke, h] at hk; cases hk
    simpa [look_upsert_ne _ _ hke] using hk

theorem dfsLe_enterNode (s : DfsSt) (n : Nat) : DfsLe s (enterNode s n) := by
  refine ⟨fun m hm => ?_, fun k t hk => hk⟩
  simp only [enterNode]
  by_cases h : n ∈ s.visited
  · simpa [h] using hm
  · simp [h, List.mem_append, hm]

theorem dfsLe_exitNode (s : DfsSt) (n : Nat) : DfsLe s (exitNode s n) :=
  ⟨fun _ h => h, fun _ _ h => h⟩

theorem dfsLe_foldl (step : DfsSt → Nat → DfsSt)
    (h : ∀ acc w, DfsLe acc (step acc w)) :
    ∀ (l : List Nat) (s : DfsSt), DfsLe s (l.foldl step s) := by
  intro l
  induction l with
  | nil => intro s; exact DfsLe.rfl s
  | cons w ws ih => intro s; exact DfsLe.trans (h s w) (ih (step s w))

theorem dfsVisit_le (r : RegionG) :
    ∀ (fuel cur : Nat) (s : DfsSt), DfsLe s (dfsVisit r fuel cur s) := by
  intro fuel
  induction fuel with
  | zero => intro cur s; exact DfsLe.rfl s
  | succ fuel ih =>
    intro cur s
    show DfsLe s (exitNode ((local_next r cur).foldl
      (dfsStep (dfsVisit r fuel) cur) (enterNode s cur)) cur)
    have hstep : ∀ acc w, DfsLe acc (dfsStep (dfsVisit r fuel) cur acc w) := by
      intro acc w
      unfold dfsStep
      have h1 := dfsLe_classify_store acc (cur, w)
      cases hty : look (classify_store acc (cur, w)).etypes (cur, w) with
      | none => simpa [hty] using h1
      | some ty =>
        cases ty with
        | NORMAL => simpa [hty] using DfsLe.trans h1 (ih w (classify_store acc (cur, w)))
        | FWD => simpa [hty] using h1
        | CROSS => simpa [hty] using h1
        | BACK => simpa [hty] using h1
    exact DfsLe.trans (dfsLe_enterNode s cur)
      (DfsLe.trans (dfsLe_foldl _ hstep _ _)
        (dfsLe_exitNode _ cur))

theorem dfsStep_le (r : RegionG) (fuel cur : Nat) :
    ∀ (acc : DfsSt) (w : Nat), DfsLe acc (dfsStep (dfsVisit r fuel) cur acc w) := by
  intro acc w
  unfold dfsStep
  have h1 := dfsLe_classify_store acc (cur, w)
  cases hty : look (classify_store acc (cur, w)).etypes (cur, w) with
  | none => simpa [hty] using h1
  | some ty =>
    cases ty with
    | NORMAL =>
      simpa [hty] using DfsLe.trans h1 (dfsVisit_le r fuel w (classify_store acc (cur, w)))
    | FWD => simpa [hty] using h1
    | CROSS => simpa [hty] using h1
    | BACK => simpa [hty] using h1

theorem classify_store_visited (s : DfsSt) (e : Nat × Nat) :
    (classify_store s e).visited = s.visited := by
  unfold classify_store
  cases look s.etypes e <;> rfl

theorem goodEv_mkEvent (r : RegionG) {s : DfsSt} {cur w : Nat}
    (hInv : DfsInv r s) (hcur : cur ∈ s.visited) (hw : w ∈ local_next r cur)
    (hnew : look s.etypes (cur, w) = none) : GoodEv (mkEvent s (cur, w)) := by
  refine ⟨?_, ?_, ?_, ?_, ?_⟩
  · intro h
    have hmem : ¬ w ∈ s.visited := by
      simpa [mkEvent] using of_decide_eq_false h
    simp [mkEvent, classify_edge, hmem]
  · intro h1 h2
    have hmem : w ∈ s.visited := by
      simpa [mkEvent] using of_decide_eq_true h1
    have hfin : look s.finish w = none := by
      have := h2
      simp only [mkEvent] at this
      cases hf : look s.finish w
      · rfl
      · rw [hf] at this; cases this
    simp [mkEvent, classify_edge, hmem, hfin]
  · intro h1 h2
    obtain ⟨t, ht⟩ : ∃ t, look s.finish w = some t := by
      have := h1
      simp only [mkEvent] at this
      exact Option.isSome_iff_exists.mp this
    have hmem : w ∈ s.visited := hInv.1 (w, t) (look_mem ht)
    have hlt : startOf s cur < startOf s w := by
      simpa [mkEvent] using h2
    simp [mkEvent, classify_edge, hmem, ht, hlt]
  · intro h1 h2
    obtain ⟨t, ht⟩ : ∃ t, look s.finish w = some t := by
      have := h1
      simp only [mkEvent] at this
      exact Option.isSome_iff_exists.mp this
    have hmem : w ∈ s.visited := hInv.1 (w, t) (look_mem ht)
    have hgt : startOf s w < startOf s cur := by
      simpa [mkEvent] using h2
    have hnlt : ¬ startOf s cur < startOf s w := Nat.lt_asymm hgt
    simp [mkEvent, classify_edge, hmem, ht, hnlt]
  · intro h
    have hcw : cur = w := by simpa [mkEvent] using h
    subst hcw
    have hfin : look s.finish cur = none := by
      cases hf : look s.finish cur with
      | none => rfl
      | some t =>
        have hsome := hInv.2.1 (cur, t) (look_mem hf) cur hw
        rw [hnew] at hsome
        cases hsome
    simp [mkEvent, classify_edge, hcur, hfin]

theorem classify_store_inv (r : RegionG) {s : DfsSt} {cur w : Nat}
    (hInv : DfsInv r s) (hcur : cur ∈ s.visited) (hw : w ∈ local_next r cur) :
    DfsInv r (classify_store s (cur, w)) ∧
      (look (classify_store s (cur, w)).etypes (cur, w)).isSome := by
  unfold classify_store
  cases h : look s.etypes (cur, w) with
  | some t => exact ⟨hInv, by simp [h]⟩
  | none =>
    refine ⟨⟨?_, ?_, ?_⟩, ?_⟩
    · intro p hp; exact hInv.1 p hp
    · intro p hp w' hw'
      exact look_upsert_isSome _ _ (hInv.2.1 p hp w' hw')
    · intro ev hev
      rcases List.mem_append.mp hev with hev | hev
      · exact hInv.2.2 ev hev
      · have : ev = mkEvent s (cur, w) := by simpa using hev
        rw [this]
        exact goodEv_mkEvent r hInv hcur hw h
    · simp [look_upsert_self]

theorem enterNode_inv (r : RegionG) {s : DfsSt} (hInv : DfsInv r s) (n : Nat) :
    DfsInv r (enterNode s n) := by
  refine ⟨?_, ?_, ?_⟩
  · intro p hp
    exact (dfsLe_enterNode s n).1 p.1 (hInv.1 p hp)
  · intro p hp w' hw'
    exact hInv.2.1 p hp w' hw'
  · intro ev hev
    exact hInv.2.2 ev hev

theorem enterNode_mem_visited (s : DfsSt) (n : Nat) : n ∈ (enterNode s n).visited := by
  simp only [enterNode]
  by_cases h : n ∈ s.visited
  · simp [h]
  · simp [h]

theorem exitNode_inv (r : RegionG) {s : DfsSt} {cur : Nat} (hInv : DfsInv r s)
    (hcur : cur ∈ s.visited)
    (hall : ∀ w ∈ local_next r cur, (look s.etypes (cur, w)).isSome) :
    DfsInv r (exitNode s cur) := by
  refine ⟨?_, ?_, ?_⟩
  · intro p hp
    rcases mem_upsert hp with hp' | hp'
    · exact hInv.1 p hp'
    · rw [hp']; exact hcur
  · intro p hp w' hw'
    rcases mem_upsert hp with hp' | hp'
    · exact hInv.2.1 p hp' w' hw'
    · rw [hp'] at hw' ⊢
      exact hall w' hw'
  · intro ev hev
    exact hInv.2.2 ev hev

theorem dfsEdges_inv (r : RegionG) (fuel : Nat)
    (ihV : ∀ (cur : Nat) (s : DfsSt), DfsInv r s → DfsInv r (dfsVisit r fuel cur s)) :
    ∀ (l : List Nat) (cur : Nat) (s : DfsSt), DfsInv r s → cur ∈ s.visited →
      (∀ w ∈ l, w ∈ local_next r cur) →
      DfsInv r (l.foldl (dfsStep (dfsVisit r fuel) cur) s) ∧
        cur ∈ (l.foldl (dfsStep (dfsVisit r fuel) cur) s).visited ∧
        ∀ w ∈ l, (look (l.foldl (dfsStep (dfsVisit r fuel) cur) s).etypes (cur, w)).isSome := by
  intro l
  induction l with
  | nil =>
    intro cur s hInv hcur _
    exact ⟨hInv, hcur, by simp⟩
  | cons w ws ih =>
    intro cur s hInv hcur hl
    have hwl : w ∈ local_next r cur := hl w (List.mem_cons_self w ws)
    obtain ⟨hInv1, hsome1⟩ := classify_store_inv r hInv hcur hwl
    have hcur1 : cur ∈ (classify_store s (cur, w)).visited := by
      rw [classify_store_visited]; exact hcur
    have hfold : (w :: ws).foldl (dfsStep (dfsVisit r fuel) cur) s =
        ws.foldl (dfsStep (dfsVisit r fuel) cur) (dfsStep (dfsVisit r fuel) cur s w) := by
      simp [List.foldl_cons]
    have hstep : DfsInv r (dfsStep (dfsVisit r fuel) cur s w) ∧
        cur ∈ (dfsStep (dfsVisit r fuel) cur s w).visited ∧
        (look (dfsStep (dfsVisit r fuel) cur s w).etypes (cur, w)).isSome := by
      unfold dfsStep
      cases hty : look (classify_store s (cur, w)).etypes (cur, w) with
      | none =>
        rw [hty] at hsome1; cases hsome1
      | some ty =>
        cases ty with
        | NORMAL =>
          refine ⟨?_, ?_, ?_⟩
          · simpa [hty] using ihV w _ hInv1
          · simpa [hty] using (dfsVisit_le r fuel w _).1 cur hcur1
          · have hkept := (dfsVisit_le r fuel w _).2 (cur, w) EdgeType.NORMAL hty
            simp [hty, hkept]
        | FWD => exact ⟨by simpa [hty] using hInv1, by simpa [hty] using hcur1, by simp [hty]⟩
        | CROSS => exact ⟨by simpa [hty] using hInv1, by simpa [hty] using hcur1, by simp [hty]⟩
        | BACK => exact ⟨by simpa [hty] using hInv1, by simpa [hty] using hcur1, by simp [hty]⟩
    obtain ⟨hInv2, hcur2, hsome2⟩ := hstep
    obtain ⟨hInvF, hcurF, hwsF⟩ := ih cur (dfsStep (dfsVisit r fuel) cur s w) hInv2 hcur2
      (fun w' hw' => hl w' (List.mem_cons_of_mem w hw'))
    refine ⟨by rwa [hfold], by rwa [hfold], ?_⟩
    intro w' hw'
    rcases List.mem_cons.mp hw' with hw' | hw'
    · subst hw'
      rw [hfold]
      obtain ⟨t, ht⟩ := Option.isSome_iff_exists.mp hsome2
      have := (dfsLe_foldl _ (dfsStep_le r fuel cur) ws (dfsStep (dfsVisit r fuel) cur s w')).2
        (cur, w') t ht
      simp [this]
    · rw [hfold]
      exact hwsF w' hw'

theorem dfsVisit_inv (r : RegionG) :
    ∀ (fuel cur : Nat) (s : DfsSt), DfsInv r s → DfsInv r (dfsVisit r fuel cur s) := by
  intro fuel
  induction fuel with
  | zero => intro cur s h; exact h
  | succ fuel ih =>
    intro cur s hInv
    show DfsInv r (exitNode ((local_next r cur).foldl
      (dfsStep (dfsVisit r fuel) cur) (enterNode s cur)) cur)
    obtain ⟨hI, hc, hstored⟩ := dfsEdges_inv r fuel ih (local_next r cur) cur (enterNode s cur)
      (enterNode_inv r hInv cur) (enterNode_mem_visited s cur) (fun _ hw => hw)
    exact exitNode_inv r hI hc hstored

theorem dfsInit_inv (r : RegionG) : DfsInv r dfsInit := by
  refine ⟨?_, ?_, ?_⟩ <;> intro p hp <;> simp [dfsInit] at hp

theorem get_edge_types_run_inv (r : RegionG) (fuel : Nat) :
    DfsInv r (get_edge_types_run r fuel) := by
  unfold get_edge_types_run
  cases sources r with
  | none => exact dfsInit_inv r
  | some srcs =>
    have : ∀ (l : List Nat) (s : DfsSt), DfsInv r s →
        DfsInv r (l.foldl (fun s src => dfsVisit r fuel src s) s) := by
      intro l
      induction l with
      | nil => intro s h; exact h
      | cons x xs ih =>
        intro s h
        exact ih _ (dfsVisit_inv r fuel x s h)
    exact this srcs dfsInit (dfsInit_inv r)

/-- C1.  During edge classification of a Region by DFS from the selected
sources, every local edge (u, v), at the moment its classification is
recorded, is classified NORMAL if v has never been visited; BACK if v has
been started but not finished; FORWARD if v is finished and
`start[u] < start[v]`; CROSS if v is finished and `start[u] > start[v]`;
and a self-loop (a, a) is always classified BACK. -/
theorem classification_rule (r : RegionG) (fuel : Nat) (ev : ClsEvent)
    (hev : ev ∈ (get_edge_types_run r fuel).events) : GoodEv ev :=
  (get_edge_types_run_inv r fuel).2.2 ev hev

/-- Witness for C1: a concrete region (1→1 self-loop and edge 1→2) whose
run records a BACK self-loop event satisfying the rule. -/
theorem classification_rule_witness :
    (⟨1, 1, true, false, 1, 1, EdgeType.BACK⟩ : ClsEvent) ∈
        (get_edge_types_run ⟨[⟨1, [1, 2], [1]⟩, ⟨2, [], [1]⟩]⟩ 20).events ∧
      GoodEv ⟨1, 1, true, false, 1, 1, EdgeType.BACK⟩ :=
  ⟨by decide, classification_rule ⟨[⟨1, [1, 2], [1]⟩, ⟨2, [], [1]⟩]⟩ 20 _ (by decide)⟩

/-- C9.  A classification stored for an ordered node pair is never
overwritten by the rest of the traversal: since the `edge_types` map is
keyed by the ordered pair, all parallel edges between the same pair share
the single classification recorded at the first encounter. -/
theorem classification_first_write_kept (r : RegionG) (fuel cur : Nat) (s : DfsSt)
    (k : Nat × Nat) (t : EdgeType) (h : look s.etypes k = some t) :
    look (dfsVisit r fuel cur s).etypes k = some t :=
  (dfsVisit_le r fuel cur s).2 k t h

/-- Witness for C9: a pair 1→2 with two parallel edges; a stored CROSS
classification survives a full later traversal from node 1. -/
theorem classification_first_write_kept_witness :
    look (dfsVisit ⟨[⟨1, [2, 2], []⟩, ⟨2, [], [1, 1]⟩]⟩ 20 1
        { dfsInit with etypes := [((1, 2), EdgeType.CROSS)] }).etypes (1, 2) =
      some EdgeType.CROSS :=
  classification_first_write_kept ⟨[⟨1, [2, 2], []⟩, ⟨2, [], [1, 1]⟩]⟩ 20 1
    { dfsInit with etypes := [((1, 2), EdgeType.CROSS)] } (1, 2) EdgeType.CROSS (by decide)

/-- C2 is violated by the code: in the region with siblings a=1, b=2, c=3
and local edges a→b, a→b (parallel), b→c, a→c, the edge (b, c) is
classified NORMAL, yet the BFS of `_get_node_depths` assigns depth(b) = 1
and depth(c) = 1, so depth(c) ≥ depth(b) + 1 fails: b's quorum
(`_num_local_prev_forward_edges` counts the two parallel a→b entries of
`local_prev` with multiplicity) can never be met by the set
`seen_in_edges[b]`, which holds the single edge key (a, b), so b is never
enqueued and never propagates its depth to c. -/
theorem depth_quorum_violation :
    look (get_edge_types regionC2 20) (2, 3) = some EdgeType.NORMAL ∧
      look (get_node_depths regionC2 (get_edge_types regionC2 20) 20) 2 = some 1 ∧
      look (get_node_depths regionC2 (get_edge_types regionC2 20) 20) 3 = some 1 ∧
      ¬ (1 + 1 ≤ 1) := by decide

theorem find?_pairwise_min {α : Type} {R : α → α → Prop} {p : α → Bool} {a : α} :
    ∀ {l : List α}, l.Pairwise R → l.find? p = some a → ∀ b ∈ l, p b = true → R a b ∨ a = b := by
  intro l
  induction l with
  | nil => intro _ h; cases h
  | cons x t ih =>
    intro hpw hfind b hb hpb
    cases hpx : p x with
    | true =>
      rw [List.find?_cons_of_pos _ hpx] at hfind
      have hax : a = x := by injection hfind with h; exact h.symm
      subst hax
      rcases List.mem_cons.mp hb with hb | hb
      · right; exact hb.symm
      · left; exact (List.pairwise_cons.mp hpw).1 b hb
    | false =>
      rw [List.find?_cons_of_neg _ (by simp [hpx])] at hfind
      rcases List.mem_cons.mp hb with hb | hb
      · subst hb; rw [hpx] at hpb; cases hpb
      · exact ih (List.pairwise_cons.mp hpw).2 hfind b hb hpb

theorem sortNames_perm (l : List Nat) : (sortNames l).Perm l :=
  List.perm_insertionSort _ l

theorem sortNames_sorted (l : List Nat) : (sortNames l).Pairwise (fun a b => a ≤ b) :=
  List.sorted_insertionSort _ l

/-- Counterexample for C3: `_sources_per_conn_comp` fails (assert False)
for a non-empty connected component, so the source computation of the
whole region fails. -/
theorem sources_assert_failure :
    (ccDfs regionC3 2 1 ([], [])).2 = [1, 2] ∧
      ([1, 2] : List Nat) ≠ [] ∧
      sources_per_conn_comp regionC3 [1, 2] = none ∧
      sources regionC3 = none := by decide

/-- Amended C3.  For a non-empty connected component: if some members have
an empty (full) `prev` list, exactly those members are returned; otherwise,
if some member attains both the component-wide minimum of |prev| and the
component-wide maximum of |next|, exactly one source is returned, namely
the name-least such member; otherwise the computation fails (`assert
False`). -/
theorem sources_per_conn_comp_spec (r : RegionG) (c : Nat) (cs : List Nat) :
    (cc_empties r (c :: cs) ≠ [] →
      sources_per_conn_comp r (c :: cs) = some (cc_empties r (c :: cs))) ∧
    (cc_empties r (c :: cs) = [] →
      (∃ m ∈ c :: cs, (prevOfN r m).length = cc_min_inward r (c :: cs) ∧
        (nextOfN r m).length = cc_max_outward r (c :: cs)) →
      ∃ n ∈ c :: cs, sources_per_conn_comp r (c :: cs) = some [n] ∧
        (prevOfN r n).length = cc_min_inward r (c :: cs) ∧
        (nextOfN r n).length = cc_max_outward r (c :: cs) ∧
        ∀ m ∈ c :: cs, (prevOfN r m).length = cc_min_inward r (c :: cs) →
          (nextOfN r m).length = cc_max_outward r (c :: cs) → n ≤ m) ∧
    (cc_empties r (c :: cs) = [] →
      (∀ m ∈ c :: cs, ¬ ((prevOfN r m).length = cc_min_inward r (c :: cs) ∧
        (nextOfN r m).length = cc_max_outward r (c :: cs))) →
      sources_per_conn_comp r (c :: cs) = none) := by
  refine ⟨?_, ?_, ?_⟩
  · intro hne
    simp [sources_per_conn_comp, hne]
  · intro hemp hex
    obtain ⟨m, hm, hmin, hmax⟩ := hex
    have hmem : m ∈ sortNames (c :: cs) := (sortNames_perm (c :: cs)).mem_iff.mpr hm
    have hsome : ((sortNames (c :: cs)).find?
        (fun n => (prevOfN r n).length = cc_min_inward r (c :: cs) ∧
          (nextOfN r n).length = cc_max_outward r (c :: cs))).isSome := by
      rw [List.find?_isSome]
      exact ⟨m, hmem, by simp [hmin, hmax]⟩
    obtain ⟨n, hn⟩ := Option.isSome_iff_exists.mp hsome
    have hpn := List.find?_some hn
    have hnp : (prevOfN r n).length = cc_min_inward r (c :: cs) ∧
        (nextOfN r n).length = cc_max_outward r (c :: cs) := by
      simpa using hpn
    have hnmem : n ∈ c :: cs :=
      (sortNames_perm (c :: cs)).mem_iff.mp (List.mem_of_find?_eq_some hn)
    refine ⟨n, hnmem, ?_, hnp.1, hnp.2, ?_⟩
    · simp only [sources_per_conn_comp]
      rw [if_neg (by simp [hemp]), hn]
    · intro m' hm' hmin' hmax'
      have hm's : m' ∈ sortNames (c :: cs) := (sortNames_perm (c :: cs)).mem_iff.mpr hm'
      rcases find?_pairwise_min (sortNames_sorted (c :: cs)) hn m' hm's
          (by simp [hmin', hmax']) with h | h
      · exact h
      · exact h.le
  · intro hemp hnone
    have : (sortNames (c :: cs)).find?
        (fun n => (prevOfN r n).length = cc_min_inward r (c :: cs) ∧
          (nextOfN r n).length = cc_max_outward r (c :: cs)) = none := by
      rw [List.find?_eq_none]
      intro x hx
      have hxm : x ∈ c :: cs := (sortNames_perm (c :: cs)).mem_iff.mp hx
      simpa using hnone x hxm
    simp only [sources_per_conn_comp]
    rw [if_neg (by simp [hemp]), this]

/-- Witness for the amended C3: a component where a=1 has empty prev
(branch 1), and one where the name-least node attaining min |prev| and
max |next| is picked (branch 2). -/
theorem sources_per_conn_comp_spec_witness :
    sources_per_conn_comp ⟨[⟨1, [2], []⟩, ⟨2, [], [1]⟩]⟩ [1, 2] = some [1] ∧
      (∃ n ∈ [1, 2],
        sources_per_conn_comp ⟨[⟨1, [2], [2]⟩, ⟨2, [1], [1]⟩]⟩ [1, 2] = some [n] ∧
        (prevOfN ⟨[⟨1, [2], [2]⟩, ⟨2, [1], [1]⟩]⟩ n).length =
          cc_min_inward ⟨[⟨1, [2], [2]⟩, ⟨2, [1], [1]⟩]⟩ [1, 2] ∧
        (nextOfN ⟨[⟨1, [2], [2]⟩, ⟨2, [1], [1]⟩]⟩ n).length =
          cc_max_outward ⟨[⟨1, [2], [2]⟩, ⟨2, [1], [1]⟩]⟩ [1, 2] ∧
        ∀ m ∈ [1, 2],
          (prevOfN ⟨[⟨1, [2], [2]⟩, ⟨2, [1], [1]⟩]⟩ m).length =
            cc_min_inward ⟨[⟨1, [2], [2]⟩, ⟨2, [1], [1]⟩]⟩ [1, 2] →
          (nextOfN ⟨[⟨1, [2], [2]⟩, ⟨2, [1], [1]⟩]⟩ m).length =
            cc_max_outward ⟨[⟨1, [2], [2]⟩, ⟨2, [1], [1]⟩]⟩ [1, 2] → n ≤ m) :=
  ⟨(sources_per_conn_comp_spec ⟨[⟨1, [2], []⟩, ⟨2, [], [1]⟩]⟩ 1 [2]).1 (by decide),
    (sources_per_conn_comp_spec ⟨[⟨1, [2], [2]⟩, ⟨2, [1], [1]⟩]⟩ 1 [2]).2.1 (by decide)
      ⟨1, by decide, by decide, by decide⟩⟩

theorem make_rows_grid_mono (step : List (Nat × Nat × Nat) → Nat × Nat → List (Nat × Nat × Nat))
    (hstep : ∀ acc cd, ∀ q ∈ acc, q ∈ step acc cd) :
    ∀ (subs : List (Nat × Nat)) (acc : List (Nat × Nat × Nat)) (q : Nat × Nat × Nat),
      q ∈ acc → q ∈ subs.foldl step acc := by
  intro subs
  induction subs with
  | nil => intro acc q hq; simpa using hq
  | cons cd t ih =>
    intro acc q hq
    exact ih (step acc cd) q (hstep acc cd q hq)

theorem make_rows_grid_places (subs : List (Nat × Nat)) :
    ∀ p ∈ subs, ∃ x, (p.1, x, p.2) ∈ make_rows_grid subs := by
  have key : ∀ (l : List (Nat × Nat)) (acc : List (Nat × Nat × Nat)), ∀ p ∈ l,
      ∃ x, (p.1, x, p.2) ∈ l.foldl (fun acc cd => acc ++ [(cd.1, rows_auto_x acc cd.2, cd.2)]) acc := by
    intro l
    induction l with
    | nil => intro acc p hp; cases hp
    | cons cd t ih =>
      intro acc p hp
      rcases List.mem_cons.mp hp with hp | hp
      · subst hp
        refine ⟨rows_auto_x acc p.2, ?_⟩
        simp only [List.foldl_cons]
        exact make_rows_grid_mono _ (fun acc' cd' q hq => List.mem_append_left _ hq) t _ _
          (List.mem_append_right _ (by simp))
      · simpa [List.foldl_cons] using ih _ p hp
  exact key subs []

/-- C4.  `place_on_grid` composes the recursively-placed children with a
PackGrid exactly when the Region's depth map has at least two entries and
every assigned depth equals 0; in every other case it composes with a
RowsGrid in which each child is placed at row y equal to its assigned
depth. -/
theorem place_on_grid_dispatch (nd : List (Nat × Nat)) :
    (place_on_grid_compose nd = PlacedGrid.packG (nd.map Prod.fst) ↔
      2 ≤ nd.length ∧ ∀ p ∈ nd, p.2 = 0) ∧
    (¬ (2 ≤ nd.length ∧ ∀ p ∈ nd, p.2 = 0) →
      place_on_grid_compose nd = PlacedGrid.rowsG (make_rows_grid nd) ∧
      ∀ p ∈ nd, ∃ x, (p.1, x, p.2) ∈ make_rows_grid nd) := by
  have hcond : independent_sub_grids nd = true ↔ (2 ≤ nd.length ∧ ∀ p ∈ nd, p.2 = 0) := by
    simp [independent_sub_grids, List.all_eq_true, Nat.succ_le_iff]
  constructor
  · constructor
    · intro h
      by_contra hc
      have hfalse : independent_sub_grids nd = false := by
        cases hb : independent_sub_grids nd
        · rfl
        · exact absurd (hcond.mp hb) hc
      simp [place_on_grid_compose, hfalse] at h
    · intro h
      simp [place_on_grid_compose, hcond.mpr h]
  · intro h
    have hfalse : independent_sub_grids nd = false := by
      cases hb : independent_sub_grids nd
      · rfl
      · exact absurd (hcond.mp hb) h
    exact ⟨by simp [place_on_grid_compose, hfalse], make_rows_grid_places nd⟩

/-- Witness for C4: a two-child depth map with a nonzero depth goes to a
RowsGrid with each child at its depth row, and a two-child all-zero map
goes to the PackGrid. -/
theorem place_on_grid_dispatch_witness :
    (place_on_grid_compose [(5, 0), (6, 1)] = PlacedGrid.rowsG (make_rows_grid [(5, 0), (6, 1)]) ∧
      ∀ p ∈ [(5, 0), (6, 1)], ∃ x, (p.1, x, p.2) ∈ make_rows_grid [(5, 0), (6, 1)]) ∧
      place_on_grid_compose [(5, 0), (6, 0)] = PlacedGrid.packG [5, 6] :=
  ⟨(place_on_grid_dispatch [(5, 0), (6, 1)]).2 (by decide),
    (place_on_grid_dispatch [(5, 0), (6, 0)]).1.mpr (by decide)⟩

theorem nodeW_le_widthG (g : GridT) : g.nodeW ≤ widthG g := by
  cases g with
  | mk tag nW nH pOuter pInner cells =>
    rw [widthG.eq_def, GridT.nodeW]
    exact le_max_of_le_right (le_max_right _ _)

theorem nodeH_le_heightG (g : GridT) : g.nodeH ≤ heightG g := by
  cases g with
  | mk tag nW nH pOuter pInner cells =>
    rw [heightG.eq_def, GridT.nodeH]
    exact le_max_of_le_right (le_max_right _ _)

/-- C6.  The assertions guarding EdgeEnd emission never fire: for a
flattened sub-grid of node n at absolute position (X, Y), every index i
into n's `local_next` (or `local_prev`) list satisfies X + i < X + W, and
every index j into n's `other_next` (or `other_prev`) list satisfies
Y + j < Y + H, because i is bounded by
`node.width = max(1, |local_prev|, |local_next|) ≤ W` and j by
`node.height = max(1, |other_prev|, |other_next|) ≤ H` for both grid
variants. -/
theorem edge_end_assertions_hold (r : RegionG) (n : Nat) (g : GridT) (X Y i j : Nat)
    (hw : g.nodeW = node_width r n) (hh : g.nodeH = node_height r n) :
    (i < (local_next r n).length ∨ i < (local_prev r n).length → X + i < X + widthG g) ∧
    (j < (other_next r n).length ∨ j < (other_prev r n).length → Y + j < Y + heightG g) := by
  constructor
  · intro hi
    have hle : i < node_width r n := by
      rcases hi with hi | hi
      · exact lt_of_lt_of_le hi (le_max_of_le_right (le_max_right _ _))
      · exact lt_of_lt_of_le hi (le_max_of_le_right (le_max_left _ _))
    have : i < widthG g := lt_of_lt_of_le hle (hw ▸ nodeW_le_widthG g)
    exact Nat.add_lt_add_left this X
  · intro hj
    have hle : j < node_height r n := by
      rcases hj with hj | hj
      · exact lt_of_lt_of_le hj (le_max_of_le_right (le_max_right _ _))
      · exact lt_of_lt_of_le hj (le_max_of_le_right (le_max_left _ _))
    have : j < heightG g := lt_of_lt_of_le hle (hh ▸ nodeH_le_heightG g)
    exact Nat.add_lt_add_left this Y

/-- Witness for C6: node 1 of a two-node region with one local edge each
way and one external edge, placed on an empty RowsGrid. -/
theorem edge_end_assertions_hold_witness :
    (0 < (local_next ⟨[⟨1, [2, 9], [2]⟩, ⟨2, [1], [1]⟩]⟩ 1).length ∨
        0 < (local_prev ⟨[⟨1, [2, 9], [2]⟩, ⟨2, [1], [1]⟩]⟩ 1).length →
      7 + 0 < 7 + widthG (GridT.mk GridTag.rowsT 1 1 2 3 [])) ∧
    (0 < (other_next ⟨[⟨1, [2, 9], [2]⟩, ⟨2, [1], [1]⟩]⟩ 1).length ∨
        0 < (other_prev ⟨[⟨1, [2, 9], [2]⟩, ⟨2, [1], [1]⟩]⟩ 1).length →
      5 + 0 < 5 + heightG (GridT.mk GridTag.rowsT 1 1 2 3 [])) :=
  edge_end_assertions_hold ⟨[⟨1, [2, 9], [2]⟩, ⟨2, [1], [1]⟩]⟩ 1
    (GridT.mk GridTag.rowsT 1 1 2 3 []) 7 5 0 0 (by decide) (by decide)

theorem lenEE_pushEE (m : List ((Nat × Nat) × List Nat)) (k k' : Nat × Nat) (i : Nat) :
    lenEE (pushEE m k' i) k = lenEE m k + if k = k' then 1 else 0 := by
  by_cases h : k = k'
  · subst h
    simp [lenEE, pushEE, look_upsert_self]
  · simp [lenEE, pushEE, look_upsert_ne _ _ h, h]

theorem isSome_pushEE (m : List ((Nat × Nat) × List Nat)) (k k' : Nat × Nat) (i : Nat) :
    (look (pushEE m k' i) k).isSome ↔ k = k' ∨ (look m k).isSome := by
  by_cases h : k = k'
  · subst h
    simp [pushEE, look_upsert_self]
  · simp [pushEE, look_upsert_ne _ _ h, h]

theorem pushFroms_eeTo (w : Nat) : ∀ (l : List Nat) (st : FlatSt),
    (pushFroms w l st).eeTo = st.eeTo := by
  intro l
  induction l with
  | nil => intro st; rfl
  | cons v vs ih => intro st; simp [pushFroms, ih]

theorem pushTos_eeFrom (w : Nat) : ∀ (l : List Nat) (st : FlatSt),
    (pushTos w l st).eeFrom = st.eeFrom := by
  intro l
  induction l with
  | nil => intro st; rfl
  | cons v vs ih => intro st; simp [pushTos, ih]

theorem pushFroms_len (w u v : Nat) : ∀ (l : List Nat) (st : FlatSt),
    lenEE (pushFroms w l st).eeFrom (u, v) =
      lenEE st.eeFrom (u, v) + if w = u then l.count v else 0 := by
  intro l
  induction l with
  | nil => intro st; simp [pushFroms]
  | cons x xs ih =>
    intro st
    rw [pushFroms, ih]
    show lenEE (pushEE st.eeFrom (w, x) st.ctr) (u, v) + _ = _
    rw [lenEE_pushEE]
    by_cases hw : w = u
    · subst hw
      by_cases hx : v = x
      · subst hx
        simp [List.count_cons]
        omega
      · have hne : ¬ ((w, v) = (w, x)) := by
          simp [Prod.ext_iff, hx]
        rw [if_neg hne, if_pos rfl, if_pos rfl, List.count_cons]
        have : (x == v) = false := by simp [Ne.symm hx]
        simp [this]
    · have hne : ¬ ((u, v) = (w, x)) := by
        simp only [Prod.mk.injEq, not_and]
        intro h1
        exact absurd h1.symm hw
      rw [if_neg hne, if_neg hw, if_neg hw]

theorem pushTos_len (w u v : Nat) : ∀ (l : List Nat) (st : FlatSt),
    lenEE (pushTos w l st).eeTo (u, v) =
      lenEE st.eeTo (u, v) + if w = v then l.count u else 0 := by
  intro l
  induction l with
  | nil => intro st; simp [pushTos]
  | cons x xs ih =>
    intro st
    rw [pushTos, ih]
    show lenEE (pushEE st.eeTo (x, w) st.ctr) (u, v) + _ = _
    rw [lenEE_pushEE]
    by_cases hw : w = v
    · subst hw
      by_cases hx : u = x
      · subst hx
        simp [List.count_cons]
        omega
      · have hne : ¬ ((u, w) = (x, w)) := by
          simp [Prod.ext_iff, hx]
        rw [if_neg hne, if_pos rfl, if_pos rfl, List.count_cons]
        have : (x == u) = false := by simp [Ne.symm hx]
        simp [this]
    · have hne : ¬ ((u, v) = (x, w)) := by
        simp only [Prod.mk.injEq, not_and]
        intro _
        exact fun h2 => hw h2.symm
      rw [if_neg hne, if_neg hw, if_neg hw]

theorem pushFroms_isSome (w u v : Nat) : ∀ (l : List Nat) (st : FlatSt),
    ((look (pushFroms w l st).eeFrom (u, v)).isSome ↔
      (look st.eeFrom (u, v)).isSome ∨ (w = u ∧ v ∈ l)) := by
  intro l
  induction l with
  | nil => intro st; simp [pushFroms]
  | cons x xs ih =>
    intro st
    rw [pushFroms, ih]
    show ((look (pushEE st.eeFrom (w, x) st.ctr) (u, v)).isSome = true ∨ _) ↔ _
    rw [isSome_pushEE]
    constructor
    · rintro ((h | h) | h)
      · rw [Prod.mk.injEq] at h
        exact Or.inr ⟨h.1.symm, by simp [h.2]⟩
      · exact Or.inl h
      · exact Or.inr ⟨h.1, List.mem_cons_of_mem _ h.2⟩
    · rintro (h | ⟨hw, hm⟩)
      · exact Or.inl (Or.inr h)
      · rcases List.mem_cons.mp hm with hm | hm
        · exact Or.inl (Or.inl (by simp [hw, hm]))
        · exact Or.inr ⟨hw, hm⟩

theorem pushTos_isSome (w u v : Nat) : ∀ (l : List Nat) (st : FlatSt),
    ((look (pushTos w l st).eeTo (u, v)).isSome ↔
      (look st.eeTo (u, v)).isSome ∨ (w = v ∧ u ∈ l)) := by
  intro l
  induction l with
  | nil => intro st; simp [pushTos]
  | cons x xs ih =>
    intro st
    rw [pushTos, ih]
    show ((look (pushEE st.eeTo (x, w) st.ctr) (u, v)).isSome = true ∨ _) ↔ _
    rw [isSome_pushEE]
    constructor
    · rintro ((h | h) | h)
      · rw [Prod.mk.injEq] at h
        exact Or.inr ⟨h.2.symm, by simp [h.1]⟩
      · exact Or.inl h
      · exact Or.inr ⟨h.1, List.mem_cons_of_mem _ h.2⟩
    · rintro (h | ⟨hw, hm⟩)
      · exact Or.inl (Or.inr h)
      · rcases List.mem_cons.mp hm with hm | hm
        · exact Or.inl (Or.inl (by simp [hw, hm]))
        · exact Or.inr ⟨hw, hm⟩

theorem count_sortByKey (key : Nat → Nat) (l : List Nat) (v : Nat) :
    (sortByKey key l).count v = l.count v :=
  (List.perm_insertionSort _ l).count_eq v

theorem mem_sortByKey (key : Nat → Nat) (l : List Nat) (v : Nat) :
    v ∈ sortByKey key l ↔ v ∈ l :=
  (List.perm_insertionSort _ l).mem_iff

theorem count_filter_false {p : Nat → Bool} {a : Nat} (h : p a = false) (l : List Nat) :
    (l.filter p).count a = 0 := by
  rw [List.count_eq_zero]
  intro hm
  have := (List.mem_filter.mp hm).2
  rw [h] at this
  cases this

theorem count_local_add_other (reg : Nat → Nat) (u v : Nat) (l : List Nat) :
    (localFilter reg u l).count v + (otherFilter reg u l).count v = l.count v := by
  by_cases h : reg v = reg u
  · rw [localFilter, otherFilter, List.count_filter (by simp [h]),
      count_filter_false (by simp [h]) l]
    omega
  · rw [localFilter, otherFilter, count_filter_false (by simp [h]) l,
      List.count_filter (by simp [h])]
    omega

theorem mem_local_or_other (reg : Nat → Nat) (u v : Nat) (l : List Nat) :
    (v ∈ localFilter reg u l ∨ v ∈ otherFilter reg u l) ↔ v ∈ l := by
  by_cases h : reg v = reg u
  · simp [localFilter, otherFilter, List.mem_filter, h]
  · simp [localFilter, otherFilter, List.mem_filter, h]

theorem count_nextOfE (edges : List (Nat × Nat)) (u v : Nat) :
    (nextOfE edges u).count v = edges.count (u, v) := by
  induction edges with
  | nil => rfl
  | cons e t ih =>
    by_cases h : e.1 = u
    · have : nextOfE (e :: t) u = e.2 :: nextOfE t u := by
        simp [nextOfE, List.filter_cons, h]
      rw [this, List.count_cons, List.count_cons, ih]
      by_cases h2 : e.2 = v
      · have he : (e == (u, v)) = true := by
          rw [beq_iff_eq, Prod.ext_iff]; exact ⟨h, h2⟩
        simp [he, h2]
      · have he : (e == (u, v)) = false := by
          simp [Prod.ext_iff, h2]
        simp [he, h2]
    · have : nextOfE (e :: t) u = nextOfE t u := by
        simp [nextOfE, List.filter_cons, h]
      rw [this, List.count_cons, ih]
      have he : (e == (u, v)) = false := by
        simp [Prod.ext_iff]
        intro h1
        exact absurd h1 h
      simp [he]

theorem count_prevOfE (edges : List (Nat × Nat)) (u v : Nat) :
    (prevOfE edges v).count u = edges.count (u, v) := by
  induction edges with
  | nil => rfl
  | cons e t ih =>
    by_cases h : e.2 = v
    · have : prevOfE (e :: t) v = e.1 :: prevOfE t v := by
        simp [prevOfE, List.filter_cons, h]
      rw [this, List.count_cons, List.count_cons, ih]
      by_cases h2 : e.1 = u
      · have he : (e == (u, v)) = true := by
          rw [beq_iff_eq, Prod.ext_iff]; exact ⟨h2, h⟩
        simp [he, h2]
      · have he : (e == (u, v)) = false := by
          simp [Prod.ext_iff, h2]
        simp [he, h2]
    · have : prevOfE (e :: t) v = prevOfE t v := by
        simp [prevOfE, List.filter_cons, h]
      rw [this, List.count_cons, ih]
      have he : (e == (u, v)) = false := by
        simp [Prod.ext_iff]
        intro _ h2
        exact absurd h2 h
      simp [he]

theorem mem_nextOfE (edges : List (Nat × Nat)) (u v : Nat) :
    v ∈ nextOfE edges u ↔ (u, v) ∈ edges := by
  rw [← List.count_pos_iff, ← List.count_pos_iff, count_nextOfE]

theorem mem_prevOfE (edges : List (Nat × Nat)) (u v : Nat) :
    u ∈ prevOfE edges v ↔ (u, v) ∈ edges := by
  rw [← List.count_pos_iff, ← List.count_pos_iff, count_prevOfE]

theorem emit_len_from (edges : List (Nat × Nat)) (reg xc yc : Nat → Nat) (w u v : Nat)
    (st : FlatSt) :
    lenEE (emit_node_edge_ends edges reg xc yc w st).eeFrom (u, v) =
      lenEE st.eeFrom (u, v) + if w = u then edges.count (u, v) else 0 := by
  unfold emit_node_edge_ends
  rw [pushTos_eeFrom, pushTos_eeFrom, pushFroms_len, pushFroms_len]
  rw [count_sortByKey, count_sortByKey]
  by_cases hw : w = u
  · subst hw
    rw [if_pos rfl, if_pos rfl, if_pos rfl]
    rw [Nat.add_assoc]
    congr 1
    rw [Nat.add_comm ((localFilter reg w (nextOfE edges w)).count v)]
    rw [Nat.add_comm] at *
    have := count_local_add_other reg w v (nextOfE edges w)
    rw [← count_nextOfE edges w v]
    omega
  · rw [if_neg hw, if_neg hw, if_neg hw]

theorem emit_len_to (edges : List (Nat × Nat)) (reg xc yc : Nat → Nat) (w u v : Nat)
    (st : FlatSt) :
    lenEE (emit_node_edge_ends edges reg xc yc w st).eeTo (u, v) =
      lenEE st.eeTo (u, v) + if w = v then edges.count (u, v) else 0 := by
  unfold emit_node_edge_ends
  rw [pushTos_len, pushTos_len, pushFroms_eeTo, pushFroms_eeTo]
  rw [count_sortByKey, count_sortByKey]
  by_cases hw : w = v
  · subst hw
    rw [if_pos rfl, if_pos rfl, if_pos rfl]
    have := count_local_add_other reg w u (prevOfE edges w)
    have h2 := count_prevOfE edges u w
    omega
  · rw [if_neg hw, if_neg hw, if_neg hw]

theorem emit_isSome_from (edges : List (Nat × Nat)) (reg xc yc : Nat → Nat) (w u v : Nat)
    (st : FlatSt) :
    (look (emit_node_edge_ends edges reg xc yc w st).eeFrom (u, v)).isSome ↔
      (look st.eeFrom (u, v)).isSome ∨ (w = u ∧ (u, v) ∈ edges) := by
  unfold emit_node_edge_ends
  rw [pushTos_eeFrom, pushTos_eeFrom, pushFroms_isSome, pushFroms_isSome]
  constructor
  · rintro ((h | ⟨hw, hm⟩) | ⟨hw, hm⟩)
    · exact Or.inl h
    · subst hw
      rw [mem_sortByKey] at hm
      refine Or.inr ⟨rfl, ?_⟩
      rw [← mem_nextOfE edges w v]
      exact ((mem_local_or_other reg w v (nextOfE edges w)).mp (Or.inl hm))
    · subst hw
      rw [mem_sortByKey] at hm
      refine Or.inr ⟨rfl, ?_⟩
      rw [← mem_nextOfE edges w v]
      exact ((mem_local_or_other reg w v (nextOfE edges w)).mp (Or.inr hm))
  · rintro (h | ⟨hw, hm⟩)
    · exact Or.inl (Or.inl h)
    · subst hw
      rw [← mem_nextOfE edges w v] at hm
      rcases (mem_local_or_other reg w v (nextOfE edges w)).mpr hm with h | h
      · exact Or.inl (Or.inr ⟨rfl, (mem_sortByKey xc _ v).mpr h⟩)
      · exact Or.inr ⟨rfl, (mem_sortByKey yc _ v).mpr h⟩

theorem emit_isSome_to (edges : List (Nat × Nat)) (reg xc yc : Nat → Nat) (w u v : Nat)
    (st : FlatSt) :
    (look (emit_node_edge_ends edges reg xc yc w st).eeTo (u, v)).isSome ↔
      (look st.eeTo (u, v)).isSome ∨ (w = v ∧ (u, v) ∈ edges) := by
  unfold emit_node_edge_ends
  rw [pushTos_isSome, pushTos_isSome, pushFroms_eeTo, pushFroms_eeTo]
  constructor
  · rintro ((h | ⟨hw, hm⟩) | ⟨hw, hm⟩)
    · exact Or.inl h
    · subst hw
      rw [mem_sortByKey] at hm
      refine Or.inr ⟨rfl, ?_⟩
      rw [← mem_prevOfE edges u w]
      exact ((mem_local_or_other reg w u (prevOfE edges w)).mp (Or.inl hm))
    · subst hw
      rw [mem_sortByKey] at hm
      refine Or.inr ⟨rfl, ?_⟩
      rw [← mem_prevOfE edges u w]
      exact ((mem_local_or_other reg w u (prevOfE edges w)).mp (Or.inr hm))
  · rintro (h | ⟨hw, hm⟩)
    · exact Or.inl (Or.inl h)
    · subst hw
      rw [← mem_prevOfE edges u w] at hm
      rcases (mem_local_or_other reg w u (prevOfE edges w)).mpr hm with h | h
      · exact Or.inl (Or.inr ⟨rfl, (mem_sortByKey xc _ u).mpr h⟩)
      · exact Or.inr ⟨rfl, (mem_sortByKey yc _ u).mpr h⟩

theorem fold_len_from (edges : List (Nat × Nat)) (reg xc yc : Nat → Nat) (u v : Nat) :
    ∀ (nodesL : List Nat) (st : FlatSt),
      lenEE (nodesL.foldl (fun st w => emit_node_edge_ends edges reg xc yc w st) st).eeFrom (u, v) =
        lenEE st.eeFrom (u, v) + nodesL.count u * edges.count (u, v) := by
  intro nodesL
  induction nodesL with
  | nil => intro st; simp
  | cons w t ih =>
    intro st
    rw [List.foldl_cons, ih, emit_len_from, List.count_cons]
    by_cases hw : w = u
    · subst hw
      simp [Nat.add_mul]
      omega
    · have : (w == u) = false := by simp [hw]
      simp [this, hw]

theorem fold_len_to (edges : List (Nat × Nat)) (reg xc yc : Nat → Nat) (u v : Nat) :
    ∀ (nodesL : List Nat) (st : FlatSt),
      lenEE (nodesL.foldl (fun st w => emit_node_edge_ends edges reg xc yc w st) st).eeTo (u, v) =
        lenEE st.eeTo (u, v) + nodesL.count v * edges.count (u, v) := by
  intro nodesL
  induction nodesL with
  | nil => intro st; simp
  | cons w t ih =>
    intro st
    rw [List.foldl_cons, ih, emit_len_to, List.count_cons]
    by_cases hw : w = v
    · subst hw
      simp [Nat.add_mul]
      omega
    · have : (w == v) = false := by simp [hw]
      simp [this, hw]

theorem fold_isSome_from (edges : List (Nat × Nat)) (reg xc yc : Nat → Nat) (u v : Nat) :
    ∀ (nodesL : List Nat) (st : FlatSt),
      ((look (nodesL.foldl (fun st w => emit_node_edge_ends edges reg xc yc w st) st).eeFrom
          (u, v)).isSome ↔
        (look st.eeFrom (u, v)).isSome ∨ (u ∈ nodesL ∧ (u, v) ∈ edges)) := by
  intro nodesL
  induction nodesL with
  | nil => intro st; simp
  | cons w t ih =>
    intro st
    rw [List.foldl_cons, ih, emit_isSome_from]
    constructor
    · rintro ((h | ⟨hw, hm⟩) | ⟨hu, hm⟩)
      · exact Or.inl h
      · exact Or.inr ⟨by simp [hw], hm⟩
      · exact Or.inr ⟨List.mem_cons_of_mem _ hu, hm⟩
    · rintro (h | ⟨hu, hm⟩)
      · exact Or.inl (Or.inl h)
      · rcases List.mem_cons.mp hu with hu | hu
        · exact Or.inl (Or.inr ⟨hu.symm, hm⟩)
        · exact Or.inr ⟨hu, hm⟩

theorem fold_isSome_to (edges : List (Nat × Nat)) (reg xc yc : Nat → Nat) (u v : Nat) :
    ∀ (nodesL : List Nat) (st : FlatSt),
      ((look (nodesL.foldl (fun st w => emit_node_edge_ends edges reg xc yc w st) st).eeTo
          (u, v)).isSome ↔
        (look st.eeTo (u, v)).isSome ∨ (v ∈ nodesL ∧ (u, v) ∈ edges)) := by
  intro nodesL
  induction nodesL with
  | nil => intro st; simp
  | cons w t ih =>
    intro st
    rw [List.foldl_cons, ih, emit_isSome_to]
    constructor
    · rintro ((h | ⟨hw, hm⟩) | ⟨hu, hm⟩)
      · exact Or.inl h
      · exact Or.inr ⟨by simp [hw], hm⟩
      · exact Or.inr ⟨List.mem_cons_of_mem _ hu, hm⟩
    · rintro (h | ⟨hu, hm⟩)
      · exact Or.inl (Or.inl h)
      · rcases List.mem_cons.mp hu with hu | hu
        · exact Or.inl (Or.inr ⟨hu.symm, hm⟩)
        · exact Or.inr ⟨hu, hm⟩

theorem look_map_keys {β γ : Type} (F : (Nat × Nat) → β → γ) :
    ∀ (l : List ((Nat × Nat) × β)) (k : Nat × Nat),
      look (l.map (fun kl => (kl.1, F kl.1 kl.2))) k = (look l k).map (F k) := by
  intro l k
  induction l with
  | nil => rfl
  | cons kl t ih =>
    obtain ⟨k', b⟩ := kl
    by_cases hk : k = k'
    · subst hk
      simp [look]
    · simp [look, hk, ih]

theorem look_wires (st : FlatSt) (k : Nat × Nat) :
    look (create_locations_edges st) k =
      (look st.eeFrom k).map (fun l => l.zip ((look st.eeTo k).getD [])) := by
  unfold create_locations_edges
  exact look_map_keys (fun k' l => l.zip ((look st.eeTo k').getD [])) st.eeFrom k

/-- C5.  For every ordered pair (u, v) occurring k times in the input edge
multiset, flattening emits exactly k source EdgeEnds under `ee_from[(u,v)]`
and exactly k destination EdgeEnds under `ee_to[(u,v)]`; a key is present
in `ee_from` iff it is present in `ee_to` (with lists of equal length k),
and wiring pairs the two lists index-wise, recording k directed edges. -/
theorem edge_end_multiplicity (edges : List (Nat × Nat)) (reg xc yc : Nat → Nat)
    (nodesL : List Nat) (hnd : nodesL.Nodup)
    (hcl : ∀ e ∈ edges, e.1 ∈ nodesL ∧ e.2 ∈ nodesL) (u v : Nat) :
    lenEE (create_locations_edge_ends edges reg xc yc nodesL).eeFrom (u, v) =
        edges.count (u, v) ∧
      lenEE (create_locations_edge_ends edges reg xc yc nodesL).eeTo (u, v) =
        edges.count (u, v) ∧
      ((look (create_locations_edge_ends edges reg xc yc nodesL).eeFrom (u, v)).isSome ↔
        (look (create_locations_edge_ends edges reg xc yc nodesL).eeTo (u, v)).isSome) ∧
      look (create_locations_edges (create_locations_edge_ends edges reg xc yc nodesL)) (u, v) =
        (look (create_locations_edge_ends edges reg xc yc nodesL).eeFrom (u, v)).map
          (fun l => l.zip
            ((look (create_locations_edge_ends edges reg xc yc nodesL).eeTo (u, v)).getD [])) ∧
      ((look (create_locations_edges (create_locations_edge_ends edges reg xc yc nodesL))
          (u, v)).getD []).length = edges.count (u, v) := by
  have hcount0 : u ∉ nodesL ∨ v ∉ nodesL → edges.count (u, v) = 0 := by
    intro h
    rw [List.count_eq_zero]
    intro hm
    rcases h with h | h
    · exact h (hcl (u, v) hm).1
    · exact h (hcl (u, v) hm).2
  have hfrom : lenEE (create_locations_edge_ends edges reg xc yc nodesL).eeFrom (u, v) =
      edges.count (u, v) := by
    rw [create_locations_edge_ends, fold_len_from]
    show 0 + nodesL.count u * edges.count (u, v) = edges.count (u, v)
    by_cases hu : u ∈ nodesL
    · have h1 : nodesL.count u ≤ 1 := List.nodup_iff_count_le_one.mp hnd u
      have h2 : 0 < nodesL.count u := List.count_pos_iff.mpr hu
      have : nodesL.count u = 1 := by omega
      rw [this]; omega
    · rw [List.count_eq_zero_of_not_mem hu, hcount0 (Or.inl hu)]
  have hto : lenEE (create_locations_edge_ends edges reg xc yc nodesL).eeTo (u, v) =
      edges.count (u, v) := by
    rw [create_locations_edge_ends, fold_len_to]
    show 0 + nodesL.count v * edges.count (u, v) = edges.count (u, v)
    by_cases hv : v ∈ nodesL
    · have h1 : nodesL.count v ≤ 1 := List.nodup_iff_count_le_one.mp hnd v
      have h2 : 0 < nodesL.count v := List.count_pos_iff.mpr hv
      have : nodesL.count v = 1 := by omega
      rw [this]; omega
    · rw [List.count_eq_zero_of_not_mem hv, hcount0 (Or.inr hv)]
  have hsf : ((look (create_locations_edge_ends edges reg xc yc nodesL).eeFrom (u, v)).isSome ↔
      (u, v) ∈ edges) := by
    rw [create_locations_edge_ends, fold_isSome_from]
    simp only [look, Option.isSome_none, Bool.false_eq_true, false_or]
    exact ⟨fun h => h.2, fun h => ⟨(hcl (u, v) h).1, h⟩⟩
  have hst : ((look (create_locations_edge_ends edges reg xc yc nodesL).eeTo (u, v)).isSome ↔
      (u, v) ∈ edges) := by
    rw [create_locations_edge_ends, fold_isSome_to]
    simp only [look, Option.isSome_none, Bool.false_eq_true, false_or]
    exact ⟨fun h => h.2, fun h => ⟨(hcl (u, v) h).2, h⟩⟩
  refine ⟨hfrom, hto, hsf.trans hst.symm, look_wires _ (u, v), ?_⟩
  rw [look_wires]
  cases hf : look (create_locations_edge_ends edges reg xc yc nodesL).eeFrom (u, v) with
  | none =>
    have : ¬ (u, v) ∈ edges := by
      rw [← hsf, hf]
      simp
    rw [List.count_eq_zero.mpr this]
    rfl
  | some lf =>
    show (lf.zip
      ((look (create_locations_edge_ends edges reg xc yc nodesL).eeTo (u, v)).getD [])).length =
        edges.count (u, v)
    rw [List.length_zip]
    have h1 : lf.length = edges.count (u, v) := by
      rw [← hfrom, lenEE, hf]
      rfl
    have h2 : ((look (create_locations_edge_ends edges reg xc yc nodesL).eeTo
        (u, v)).getD []).length = edges.count (u, v) := hto
    rw [h1, h2]
    exact Nat.min_self _

/-- Witness for C5: edges 1→2 (twice) and 2→1 among the two flattened
nodes 1, 2 of a single region. -/
theorem edge_end_multiplicity_witness :
    lenEE (create_locations_edge_ends [(1, 2), (1, 2), (2, 1)] (fun _ => 0) id id
        [1, 2]).eeFrom (1, 2) = List.count (1, 2) [(1, 2), (1, 2), (2, 1)] ∧
      lenEE (create_locations_edge_ends [(1, 2), (1, 2), (2, 1)] (fun _ => 0) id id
        [1, 2]).eeTo (1, 2) = List.count (1, 2) [(1, 2), (1, 2), (2, 1)] ∧
      ((look (create_locations_edge_ends [(1, 2), (1, 2), (2, 1)] (fun _ => 0) id id
          [1, 2]).eeFrom (1, 2)).isSome ↔
        (look (create_locations_edge_ends [(1, 2), (1, 2), (2, 1)] (fun _ => 0) id id
          [1, 2]).eeTo (1, 2)).isSome) ∧
      look (create_locations_edges (create_locations_edge_ends [(1, 2), (1, 2), (2, 1)]
          (fun _ => 0) id id [1, 2])) (1, 2) =
        (look (create_locations_edge_ends [(1, 2), (1, 2), (2, 1)] (fun _ => 0) id id
          [1, 2]).eeFrom (1, 2)).map
          (fun l => l.zip ((look (create_locations_edge_ends [(1, 2), (1, 2), (2, 1)]
            (fun _ => 0) id id [1, 2]).eeTo (1, 2)).getD [])) ∧
      ((look (create_locations_edges (create_locations_edge_ends [(1, 2), (1, 2), (2, 1)]
          (fun _ => 0) id id [1, 2])) (1, 2)).getD []).length =
        List.count (1, 2) [(1, 2), (1, 2), (2, 1)] :=
  edge_end_multiplicity [(1, 2), (1, 2), (2, 1)] (fun _ => 0) id id [1, 2]
    (by decide) (by decide) 1 2

/-- Counterexample for C7: at depth 0 with max depth 1 the code computes
gray 218 = ⌊255·6/7⌋, while rounding to the nearest integer gives 219. -/
theorem get_color_not_round :
    get_color 0 1 = (218, 218, 218) ∧
      round ((255 : ℚ) * (1 - ((0 : ℚ) + (1 / 5 : ℚ) * 1) / ((1 : ℚ) + 2 * ((1 / 5 : ℚ) * 1)))) =
        219 ∧
      (218 : ℤ) ≠ 219 := by
  refine ⟨?_, ?_, by decide⟩
  · norm_num [get_color, ratTrunc]
  · rw [round_eq]
    norm_num

/-- Amended C7.  For depth d ≤ max depth D (with D = 0 treated as 1), the
block color is the gray triple (g, g, g) where g is the *floor* (Python
`int` truncation), not the nearest integer, of 255·(1 − (d + 0.2D)/(D +
0.4D)); in closed form g = ⌊255·(6D − 5d) / (7D)⌋. -/
theorem get_color_floor (depth maxDepth : Nat) (h : depth ≤ maxDepth) :
    get_color depth maxDepth =
      ((((255 * (6 * (if maxDepth = 0 then 1 else maxDepth) - 5 * depth)) /
          (7 * (if maxDepth = 0 then 1 else maxDepth)) : ℕ) : ℤ),
        (((255 * (6 * (if maxDepth = 0 then 1 else maxDepth) - 5 * depth)) /
          (7 * (if maxDepth = 0 then 1 else maxDepth)) : ℕ) : ℤ),
        (((255 * (6 * (if maxDepth = 0 then 1 else maxDepth) - 5 * depth)) /
          (7 * (if maxDepth = 0 then 1 else maxDepth)) : ℕ) : ℤ)) := by
  have hd : depth ≤ (if maxDepth = 0 then 1 else maxDepth) := by
    split
    · omega
    · exact h
  have hD1 : 1 ≤ (if maxDepth = 0 then 1 else maxDepth) := by
    split
    · omega
    · omega
  show (ratTrunc _, ratTrunc _, ratTrunc _) = _
  generalize hDdef : (if maxDepth = 0 then 1 else maxDepth) = D at hd hD1 ⊢
  have hDQ : ((D : ℚ)) ≠ 0 := by
    have : (0 : ℚ) < (D : ℚ) := by exact_mod_cast hD1
    exact ne_of_gt this
  have hsub : 5 * depth ≤ 6 * D := by omega
  have key : (1 - ((depth : ℚ) + 1 / 5 * (D : ℚ)) / ((D : ℚ) + 2 * (1 / 5 * (D : ℚ)))) * 255 =
      (((255 * (6 * D - 5 * depth) : ℕ) : ℤ) : ℚ) / ((7 * D : ℕ) : ℚ) := by
    push_cast [hsub]
    field_simp
    ring
  have hnn : (0 : ℚ) ≤
      (1 - ((depth : ℚ) + 1 / 5 * (D : ℚ)) / ((D : ℚ) + 2 * (1 / 5 * (D : ℚ)))) * 255 := by
    rw [key]
    positivity
  have hfloor : ratTrunc
      ((1 - ((depth : ℚ) + 1 / 5 * (D : ℚ)) / ((D : ℚ) + 2 * (1 / 5 * (D : ℚ)))) * 255) =
      ((255 * (6 * D - 5 * depth)) / (7 * D) : ℕ) := by
    rw [ratTrunc, if_pos hnn, key, Rat.floor_intCast_div_natCast]
    rfl
  rw [hfloor]

/-- Witness for the amended C7 at depth 2, max depth 5. -/
theorem get_color_floor_witness :
    get_color 2 5 =
      ((((255 * (6 * (if (5 : ℕ) = 0 then 1 else 5) - 5 * 2)) /
          (7 * (if (5 : ℕ) = 0 then 1 else 5)) : ℕ) : ℤ),
        (((255 * (6 * (if (5 : ℕ) = 0 then 1 else 5) - 5 * 2)) /
          (7 * (if (5 : ℕ) = 0 then 1 else 5)) : ℕ) : ℤ),
        (((255 * (6 * (if (5 : ℕ) = 0 then 1 else 5) - 5 * 2)) /
          (7 * (if (5 : ℕ) = 0 then 1 else 5)) : ℕ) : ℤ)) :=
  get_color_floor 2 5 (by decide)

theorem look_updEE (i j : Nat) (f : EEnd → EEnd) :
    ∀ L : List (Nat × EEnd),
      look (updEE L i f) j = if j = i then (look L i).map f else look L j := by
  intro L
  induction L with
  | nil => by_cases hj : j = i <;> simp [updEE, look, hj]
  | cons p t ih =>
    obtain ⟨k, e⟩ := p
    have hmap : updEE ((k, e) :: t) i f =
        (if k = i then (k, f e) else (k, e)) :: updEE t i f := by
      simp only [updEE, List.map_cons]
    rw [hmap]
    by_cases hk : k = i
    · subst hk
      rw [if_pos rfl]
      by_cases hj : j = k
      · subst hj
        simp [look]
      · simp [look, hj, ih]
    · rw [if_neg hk]
      by_cases hj : j = k
      · subst hj
        have hji : ¬ j = i := fun h => hk h
        simp [look, hji]
      · have hik : ¬ i = k := fun h => hk h.symm
        simp [look, hj, ih, hik]

theorem mem_addPeer (e : EEnd) (j : Nat) : j ∈ (addPeer e j).peers := by
  rw [addPeer]
  by_cases h : j ∈ e.peers
  · simp [h]
  · simp [h]

/-- Counterexample for C8: calling `add_edge` with the same edge end as
both source and destination fails the assertion even though the
destination was not marked as a source at the time of the call. -/
theorem add_edge_self_loop_fails :
    locations_add_edge [(0, ⟨false, []⟩)] 0 0 = none ∧
      (look [(0, (⟨false, []⟩ : EEnd))] 0).map EEnd.isSource = some false := by decide

/-- Amended C8.  For two distinct edge-end ids s ≠ d present in the store,
`add_edge(s, d)` cross-links the two edge ends as peers, sets
`s.is_source = True`, and fails exactly when d was already marked as a
source at the time of the call (it also always fails when s = d, since
setting `s.is_source` then makes the destination a source before the
assert); on success the destination's `is_source` flag remains false. -/
theorem add_edge_spec (L : List (Nat × EEnd)) (s d : Nat) (es ed : EEnd)
    (hs : look L s = some es) (hd : look L d = some ed) (hne : s ≠ d) :
    (locations_add_edge L s d = none ↔ ed.isSource = true) ∧
      (ed.isSource = false →
        locations_add_edge L s d = some (add_edge_store L s d) ∧
        ∀ L', locations_add_edge L s d = some L' →
          (look L' s).map EEnd.isSource = some true ∧
          (look L' d).map EEnd.isSource = some false ∧
          (∃ e', look L' s = some e' ∧ d ∈ e'.peers) ∧
          (∃ e', look L' d = some e' ∧ s ∈ e'.peers)) := by
  have hdm : ¬ d = s := fun h => hne h.symm
  have hlook3d : look (add_edge_store L s d) d = some (addPeer ed s) := by
    rw [add_edge_store, look_updEE, if_neg hdm, look_updEE, if_pos rfl, look_updEE,
      if_neg hdm, hd]
    rfl
  have hlook3s : look (add_edge_store L s d) s =
      some { addPeer es d with isSource := true } := by
    rw [add_edge_store, look_updEE, if_pos rfl, look_updEE, if_neg hne, look_updEE,
      if_pos rfl, hs]
    rfl
  have hmain : locations_add_edge L s d =
      if ed.isSource then none else some (add_edge_store L s d) := by
    unfold locations_add_edge
    rw [hlook3d]
    rfl
  refine ⟨?_, ?_⟩
  · rw [hmain]
    cases h : ed.isSource <;> simp [h]
  · intro hsrc
    rw [hmain, hsrc]
    refine ⟨by simp, ?_⟩
    intro L' hL'
    simp only [Bool.false_eq_true, if_false, Option.some.injEq] at hL'
    subst hL'
    refine ⟨?_, ?_, ?_, ?_⟩
    · rw [hlook3s]
      rfl
    · rw [hlook3d]
      show some (addPeer ed s).isSource = some false
      rw [show (addPeer ed s).isSource = ed.isSource from rfl, hsrc]
    · exact ⟨_, hlook3s, mem_addPeer es d⟩
    · exact ⟨_, hlook3d, mem_addPeer ed s⟩

/-- Witness for the amended C8: two fresh edge ends 0 and 1. -/
theorem add_edge_spec_witness :
    (locations_add_edge [(0, ⟨false, []⟩), (1, ⟨false, []⟩)] 0 1 = none ↔
      (⟨false, []⟩ : EEnd).isSource = true) ∧
      ((⟨false, []⟩ : EEnd).isSource = false →
        locations_add_edge [(0, ⟨false, []⟩), (1, ⟨false, []⟩)] 0 1 =
          some (add_edge_store [(0, ⟨false, []⟩), (1, ⟨false, []⟩)] 0 1) ∧
        ∀ L', locations_add_edge [(0, ⟨false, []⟩), (1, ⟨false, []⟩)] 0 1 = some L' →
          (look L' 0).map EEnd.isSource = some true ∧
          (look L' 1).map EEnd.isSource = some false ∧
          (∃ e', look L' 0 = some e' ∧ 1 ∈ e'.peers) ∧
          (∃ e', look L' 1 = some e' ∧ 0 ∈ e'.peers)) :=
  add_edge_spec [(0, ⟨false, []⟩), (1, ⟨false, []⟩)] 0 1 ⟨false, []⟩ ⟨false, []⟩
    (by decide) (by decide) (by decide)

/-- C10.  `Node.add_edge` preserves next/prev symmetry: a single call
appends exactly one occurrence of v to u.next and one occurrence of u to
v.prev and modifies no other list, and after any sequence of `add_edge`
calls the number of occurrences of v in u.next equals the number of
occurrences of u in v.prev, for every ordered pair (u, v). -/
theorem add_edge_symmetry :
    (∀ (g : AdjSt) (u v : Nat),
      (node_add_edge g u v).1 u = g.1 u ++ [v] ∧
      (node_add_edge g u v).2 v = g.2 v ++ [u] ∧
      (∀ w, w ≠ u → (node_add_edge g u v).1 w = g.1 w) ∧
      (∀ w, w ≠ v → (node_add_edge g u v).2 w = g.2 w)) ∧
    ∀ (es : List (Nat × Nat)) (u v : Nat),
      ((apply_edges es).1 u).count v = ((apply_edges es).2 v).count u := by
  constructor
  · intro g u v
    refine ⟨by simp [node_add_edge], by simp [node_add_edge], ?_, ?_⟩
    · intro w hw
      simp [node_add_edge, hw]
    · intro w hw
      simp [node_add_edge, hw]
  · have key : ∀ (es : List (Nat × Nat)) (g : AdjSt),
        (∀ u v, (g.1 u).count v = (g.2 v).count u) →
        ∀ u v, ((es.foldl (fun g e => node_add_edge g e.1 e.2) g).1 u).count v =
          ((es.foldl (fun g e => node_add_edge g e.1 e.2) g).2 v).count u := by
      intro es
      induction es with
      | nil => intro g hg u v; exact hg u v
      | cons e t ih =>
        intro g hg u v
        refine ih (node_add_edge g e.1 e.2) ?_ u v
        intro u' v'
        rcases e with ⟨a, b⟩
        have hvb : List.count v' [b] = if v' = b then 1 else 0 := by
          by_cases hv : v' = b
          · simp [hv]
          · have : ¬ b = v' := fun h => hv h.symm
            simp [List.count_cons, this, hv]
        have hua : List.count u' [a] = if u' = a then 1 else 0 := by
          by_cases hu : u' = a
          · simp [hu]
          · have : ¬ a = u' := fun h => hu h.symm
            simp [List.count_cons, this, hu]
        have h1 : List.count v' ((node_add_edge g a b).1 u') =
            List.count v' (g.1 u') + (if u' = a then 1 else 0) * (if v' = b then 1 else 0) := by
          by_cases hu : u' = a
          · have : (node_add_edge g a b).1 u' = g.1 u' ++ [b] := by
              simp [node_add_edge, hu]
            rw [this, List.count_append, hvb, hu]
            simp
          · have : (node_add_edge g a b).1 u' = g.1 u' := by
              simp [node_add_edge, hu]
            rw [this, if_neg hu]
            simp
        have h2 : List.count u' ((node_add_edge g a b).2 v') =
            List.count u' (g.2 v') + (if u' = a then 1 else 0) * (if v' = b then 1 else 0) := by
          by_cases hv : v' = b
          · have : (node_add_edge g a b).2 v' = g.2 v' ++ [a] := by
              simp [node_add_edge, hv]
            rw [this, List.count_append, hua, hv]
            simp
          · have : (node_add_edge g a b).2 v' = g.2 v' := by
              simp [node_add_edge, hv]
            rw [this, if_neg hv]
            simp
        rw [h1, h2, hg u' v']
    intro es u v
    exact key es adjInit (fun _ _ => rfl) u v

/-- Witness for C10: after adding edge 1→2 node 3's lists are untouched,
and the parallel edges 1→2, 1→2, 2→1 keep next/prev counts symmetric. -/
theorem add_edge_symmetry_witness :
    (node_add_edge adjInit 1 2).1 3 = adjInit.1 3 ∧
      ((apply_edges [(1, 2), (1, 2), (2, 1)]).1 1).count 2 =
        ((apply_edges [(1, 2), (1, 2), (2, 1)]).2 2).count 1 :=
  ⟨(add_edge_symmetry.1 adjInit 1 2).2.2.1 3 (by decide),
    add_edge_symmetry.2 [(1, 2), (1, 2), (2, 1)] 1 2⟩
